import Mathlib

/-!
Verification of the timeline-rendering engine of `src/turbo-chart.mts`.

The program is JavaScript, whose numbers are IEEE-754 binary64.  This
embedding models finite-number arithmetic exactly, as a fraction with an
integer numerator and a positive natural denominator that is never
normalised (so no gcd computations are needed and all arithmetic is plain
integer arithmetic), and models the special values `Infinity`, `-Infinity`
and `NaN` together with their JavaScript propagation rules exactly.
Integer sums, differences, comparisons and floors below `2^53` are exact in
binary64 and hence faithful here; multiplication and division are *not*
always exact in binary64 (`100 / 97` rounds, and the computed timeline
width `Math.floor(totalDuration * msToChars)` can be `99` rather than the
exact `100`).  For that reason every verified property that involves a
multiplied or divided quantity is either rounding-insensitive (a sign, a
floor-of-nonnegative or a `max` bound) or is stated parametrically in the
*computed* values — the timeline width, the bar bounds, the marker and
timestamp columns — through hypotheses that hold for the rounded binary64
values just as for the exact ones, rather than by pinning those values to
their exact-arithmetic results.  The signed zero `-0` is collapsed onto
`0`, which this program cannot observe (JavaScript prints `-0` as `"0"`).

ANSI styling (the `styleText` calls and the raw color escape interpolations
in row rendering) is presentation-only and zero-width on screen; rendering
functions here produce the visible characters of each line.  The color
*assignment* (`assignPackageColors`, `getTaskColor`) is still modelled as
data, since one claim is about it.
-/

/-- Model of a JavaScript number: `num n d` is the finite value `n / d`
(with `d > 0` for every value this development constructs), plus the three
special values.  The fraction is kept unnormalised. -/
inductive JSNum where
  | num (n : ℤ) (d : ℕ)
  | posInf
  | negInf
  | nan
deriving DecidableEq, Repr

/-- JavaScript unary minus. -/
def jneg : JSNum → JSNum
  | .num n d => .num (-n) d
  | .posInf => .negInf
  | .negInf => .posInf
  | .nan => .nan

/-- JavaScript addition: `NaN` propagates, `Infinity + -Infinity = NaN`. -/
def jadd : JSNum → JSNum → JSNum
  | .nan, _ => .nan
  | _, .nan => .nan
  | .posInf, .negInf => .nan
  | .negInf, .posInf => .nan
  | .posInf, _ => .posInf
  | _, .posInf => .posInf
  | .negInf, _ => .negInf
  | _, .negInf => .negInf
  | .num a ad, .num b bd => .num (a * bd + b * ad) (ad * bd)

/-- JavaScript subtraction. -/
def jsub (a b : JSNum) : JSNum := jadd a (jneg b)

/-- JavaScript multiplication: `NaN` propagates and `0 * ±Infinity = NaN`. -/
def jmul : JSNum → JSNum → JSNum
  | .nan, _ => .nan
  | _, .nan => .nan
  | .num a _, .posInf => if a = 0 then .nan else if 0 < a then .posInf else .negInf
  | .num a _, .negInf => if a = 0 then .nan else if 0 < a then .negInf else .posInf
  | .posInf, .num b _ => if b = 0 then .nan else if 0 < b then .posInf else .negInf
  | .negInf, .num b _ => if b = 0 then .nan else if 0 < b then .negInf else .posInf
  | .posInf, .posInf => .posInf
  | .posInf, .negInf => .negInf
  | .negInf, .posInf => .negInf
  | .negInf, .negInf => .posInf
  | .num a ad, .num b bd => .num (a * b) (ad * bd)

/-- JavaScript division: `x / 0` is `±Infinity` by the sign of `x` (`NaN`
for `0 / 0`), `Infinity / Infinity = NaN`, finite `/ Infinity` is zero. -/
def jdiv : JSNum → JSNum → JSNum
  | .nan, _ => .nan
  | _, .nan => .nan
  | .posInf, .posInf => .nan
  | .posInf, .negInf => .nan
  | .negInf, .posInf => .nan
  | .negInf, .negInf => .nan
  | .num _ _, .posInf => .num 0 1
  | .num _ _, .negInf => .num 0 1
  | .posInf, .num b _ => if 0 ≤ b then .posInf else .negInf
  | .negInf, .num b _ => if 0 ≤ b then .negInf else .posInf
  | .num a ad, .num b bd =>
    if b = 0 then (if a = 0 then .nan else if 0 < a then .posInf else .negInf)
    else if 0 < b then .num (a * bd) (ad * b.toNat)
    else .num (-(a * bd)) (ad * (-b).toNat)

/-- JavaScript `Math.floor`: identity on the special values. -/
def jfloor : JSNum → JSNum
  | .num n d => .num (n.fdiv d) 1
  | x => x

/-- JavaScript `<`: false whenever either side is `NaN`. -/
def jltB : JSNum → JSNum → Bool
  | .num a ad, .num b bd => decide (a * bd < b * ad)
  | .num _ _, .posInf => true
  | .negInf, .num _ _ => true
  | .negInf, .posInf => true
  | _, _ => false

/-- JavaScript `<=`: false whenever either side is `NaN`. -/
def jleB : JSNum → JSNum → Bool
  | .num a ad, .num b bd => decide (a * bd ≤ b * ad)
  | .num _ _, .posInf => true
  | .negInf, .num _ _ => true
  | .negInf, .posInf => true
  | .posInf, .posInf => true
  | .negInf, .negInf => true
  | _, _ => false

/-- JavaScript `>=`, which is `<=` with the operands swapped (also for `NaN`). -/
def jgeB (a b : JSNum) : Bool := jleB b a

/-- JavaScript strict equality `===`: `NaN` equals nothing, including itself. -/
def jsStrictEqB : JSNum → JSNum → Bool
  | .num a ad, .num b bd => decide (a * bd = b * ad)
  | .posInf, .posInf => true
  | .negInf, .negInf => true
  | _, _ => false

/-- The SameValueZero comparison used by `Array.prototype.includes`: like
`===` except that `NaN` equals `NaN`. -/
def jsSameValueZeroB : JSNum → JSNum → Bool
  | .num a ad, .num b bd => decide (a * bd = b * ad)
  | .posInf, .posInf => true
  | .negInf, .negInf => true
  | .nan, .nan => true
  | _, _ => false

/-- JavaScript `Math.min` of two arguments (`NaN` absorbs). -/
def jmin (a b : JSNum) : JSNum :=
  match a, b with
  | .nan, _ => .nan
  | _, .nan => .nan
  | x, y => if jltB y x then y else x

/-- JavaScript `Math.max` of two arguments (`NaN` absorbs). -/
def jmax (a b : JSNum) : JSNum :=
  match a, b with
  | .nan, _ => .nan
  | _, .nan => .nan
  | x, y => if jltB x y then y else x

/-- JavaScript `Math.min(...xs)` over a spread list: `Infinity` when empty. -/
def jsMinList (l : List JSNum) : JSNum := l.foldr jmin .posInf

/-- JavaScript `Math.max(...xs)` over a spread list: `-Infinity` when empty. -/
def jsMaxList (l : List JSNum) : JSNum := l.foldr jmax .negInf

/-- Number of iterations of a loop `for (let i = 0; i <= w; i++)` whose
bound `w` is the given number.  (A `+Infinity` bound would not terminate in
JavaScript; this program never produces one as a loop bound.)  Used to
compute the fuel for the structural recursions below. -/
def jsLoopBound : JSNum → ℕ
  | .num n d => if n < 0 then 0 else (n.fdiv d).toNat + 1
  | _ => 0

/-- A run of `k` ASCII spaces. -/
def spacesStr (k : ℕ) : String := String.mk (List.replicate k ' ')

/-- JavaScript `" ".repeat(x)`: the count is truncated toward zero (`NaN`
becomes 0) and a negative or infinite count throws a `RangeError`. -/
def jsRepeatCount : JSNum → Except String ℕ
  | .nan => .ok 0
  | .posInf => .error "RangeError: Invalid count value"
  | .negInf => .error "RangeError: Invalid count value"
  | .num n d =>
    let t : ℤ := if 0 ≤ n then n.fdiv d else -((-n).fdiv d)
    if t < 0 then .error "RangeError: Invalid count value" else .ok t.toNat

/-- JavaScript `s.padEnd(x)` (padding with spaces): the target length is
truncated toward zero; a target not exceeding the current length returns
the string unchanged.  (An infinite target would throw in JavaScript; this
program never produces one.) -/
def jsPadEnd (s : String) (x : JSNum) : String :=
  match x with
  | .num n d =>
    let t : ℤ := if 0 ≤ n then n.fdiv d else -((-n).fdiv d)
    if (s.length : ℤ) < t then s ++ spacesStr (t.toNat - s.length) else s
  | _ => s

/-- String rendering of an exact nonnegative value `n / d` whose decimal
expansion terminates within two places, exactly as JavaScript number
`toString` prints it (shortest decimal, trailing zeros dropped).  Every
finite value this program converts to a string is an integer or an exact
multiple of 1/100; the first branch is never taken. -/
def hundredthsToString (n : ℤ) (d : ℕ) : String :=
  let k : ℤ := (100 * n).fdiv d
  if ¬ (100 * n) % (d : ℤ) = 0 then toString n ++ "/" ++ toString d
  else if k % 100 = 0 then toString (k / 100)
  else if k % 10 = 0 then toString (k / 100) ++ "." ++ toString ((k / 10) % 10)
  else toString (k / 100) ++ "." ++ (if k % 100 < 10 then "0" else "") ++ toString (k % 100)

/-- JavaScript string conversion of a number, for the values this program
prints. -/
def jsToString : JSNum → String
  | .nan => "NaN"
  | .posInf => "Infinity"
  | .negInf => "-Infinity"
  | .num n d => if n < 0 then "-" ++ hundredthsToString (-n) d else hundredthsToString n d

/-- The `formatDuration` function: a millisecond count below 1000 prints as
an integer with an `"ms"` suffix; otherwise `Math.floor(ms / 10) / 100`
prints as a JavaScript number (so with *at most* two decimals, trailing
zeros dropped) with an `"s"` suffix. -/
def formatDuration (ms : JSNum) : String :=
  if jltB ms (.num 1000 1) then jsToString ms ++ "ms"
  else jsToString (jdiv (jfloor (jdiv ms (.num 10 1))) (.num 100 1)) ++ "s"

/-- The `CONFIG` constant object. -/
structure Config where
  TIMELINE_WIDTH : ℕ
  MAX_LABEL_WIDTH : ℕ
  MIN_BAR_WIDTH : ℕ
  NUM_TIME_MARKERS : ℕ
deriving DecidableEq, Repr

def CONFIG : Config := ⟨100, 45, 3, 8⟩

/-- The `execution` sub-record of a summary task.  The rendering engine
reads only `startTime` and `endTime` (epoch milliseconds, integers). -/
structure TaskExecution where
  startTime : ℤ
  endTime : ℤ
deriving DecidableEq, Repr

/-- A `SummaryTask`.  Of its fields the rendering engine consumes only
`taskId`, `package` and `execution`; the pass-through fields (`task`,
`hash`, `cache`, `command`, the exit code) are never read by any function
modelled here and are omitted. -/
structure SummaryTask where
  taskId : String
  package : String
  execution : TaskExecution
deriving DecidableEq, Repr

/-- Constructor field `this.startTime = Math.min(...tasks.map(t => t.execution.startTime))`. -/
def rendererStartTime (tasks : List SummaryTask) : JSNum :=
  jsMinList (tasks.map (fun t => JSNum.num t.execution.startTime 1))

/-- Constructor field `this.endTime = Math.max(...tasks.map(t => t.execution.endTime))`. -/
def rendererEndTime (tasks : List SummaryTask) : JSNum :=
  jsMaxList (tasks.map (fun t => JSNum.num t.execution.endTime 1))

/-- Constructor field `this.totalDuration = this.endTime - this.startTime`. -/
def totalDuration (tasks : List SummaryTask) : JSNum :=
  jsub (rendererEndTime tasks) (rendererStartTime tasks)

/-- Constructor field `this.msToChars = timelineWidth / this.totalDuration`,
with the default `timelineWidth = CONFIG.TIMELINE_WIDTH` (the only call
site constructs the renderer without the optional argument). -/
def msToChars (tasks : List SummaryTask) : JSNum :=
  jdiv (.num (CONFIG.TIMELINE_WIDTH : ℤ) 1) (totalDuration tasks)

/-- Constructor expression `Math.max(...tasks.map(t => t.taskId.length))`. -/
def maxLabelLength (tasks : List SummaryTask) : JSNum :=
  jsMaxList (tasks.map (fun t => JSNum.num t.taskId.length 1))

/-- Constructor field `this.labelWidth = Math.min(maxLabelLength + 2, CONFIG.MAX_LABEL_WIDTH)`. -/
def labelWidth (tasks : List SummaryTask) : JSNum :=
  jmin (jadd (maxLabelLength tasks) (.num 2 1)) (.num (CONFIG.MAX_LABEL_WIDTH : ℤ) 1)

/-- Method `timeToChars(ms) = Math.floor(ms * this.msToChars)`. -/
def timeToChars (tasks : List SummaryTask) (ms : JSNum) : JSNum :=
  jfloor (jmul ms (msToChars tasks))

/-- The list `[...new Set(tasks.map(t => t.package))]`: package names in
first-seen order (a JavaScript `Set` preserves insertion order). -/
def uniquePackages (tasks : List SummaryTask) : List String :=
  tasks.foldl (fun acc t => if t.package ∈ acc then acc else acc ++ [t.package]) []

/-- The fixed 256-color palette `colorCodes`. -/
def colorCodes : List ℕ := [29, 31, 64, 97, 136, 166, 168]

/-- Method `assignPackageColors`: each first-seen package maps to the escape
string for its palette entry, cycling modulo the palette size.  A JavaScript
`Map` built by inserting distinct keys in order is an insertion-ordered
association list. -/
def assignPackageColors (tasks : List SummaryTask) : List (String × String) :=
  (uniquePackages tasks).enum.map (fun ip =>
    (ip.2, "\x1b[48;5;" ++ toString (colorCodes.getD (ip.1 % colorCodes.length) 0) ++ "m"))

/-- Method `getTaskColor`: map lookup with the `"\x1b[48;5;51m"` fallback
(the `||` fallback also triggers on an empty string, but no assigned color
string is empty). -/
def getTaskColor (tasks : List SummaryTask) (t : SummaryTask) : String :=
  ((assignPackageColors tasks).lookup t.package).getD "\x1b[48;5;51m"

/-- Method `getMarkerPositions`: positions `Math.floor((i / NUM_TIME_MARKERS) * width)`
for `i = 0 .. NUM_TIME_MARKERS`, then `width` is appended unless already
present (`Array.includes` uses SameValueZero, so a `NaN` width is found
among `NaN` entries). -/
def getMarkerPositions (tasks : List SummaryTask) : List JSNum :=
  let width := timeToChars tasks (totalDuration tasks)
  let positions := (List.range (CONFIG.NUM_TIME_MARKERS + 1)).map
    (fun i => jfloor (jmul (jdiv (.num i 1) (.num (CONFIG.NUM_TIME_MARKERS : ℤ) 1)) width))
  if positions.any (fun p => jsSameValueZeroB p width) then positions else positions ++ [width]

/-- Method `getTimestamps`: for each `i = 0 .. NUM_TIME_MARKERS`, the label
is `formatDuration(Math.floor((i / NUM_TIME_MARKERS) * totalDuration))` and
the position is `labelWidth + timeToChars((i / NUM_TIME_MARKERS) * totalDuration)`. -/
def getTimestamps (tasks : List SummaryTask) : List (JSNum × String) :=
  (List.range (CONFIG.NUM_TIME_MARKERS + 1)).map (fun i =>
    let frac := jdiv (.num i 1) (.num (CONFIG.NUM_TIME_MARKERS : ℤ) 1)
    let time := jfloor (jmul frac (totalDuration tasks))
    let label := formatDuration time
    let pos := jadd (labelWidth tasks) (timeToChars tasks (jmul frac (totalDuration tasks)))
    (pos, label))

/-- Method `getTaskBarBounds`: `barStart = timeToChars(start - timelineStart)`,
`barWidth = Math.max(MIN_BAR_WIDTH, timeToChars(duration))`, and the result
is the pair `(barStart, barStart + barWidth)`. -/
def getTaskBarBounds (tasks : List SummaryTask) (t : SummaryTask) : JSNum × JSNum :=
  let taskStart := jsub (.num t.execution.startTime 1) (rendererStartTime tasks)
  let taskDuration := jsub (.num t.execution.endTime 1) (.num t.execution.startTime 1)
  let barStart := timeToChars tasks taskStart
  let barWidth := jmax (.num (CONFIG.MIN_BAR_WIDTH : ℤ) 1) (timeToChars tasks taskDuration)
  (barStart, jadd barStart barWidth)

/-- Loop body of `renderTaskRow` (`for (let i = 0; i <= width; i++)`),
returning the visible characters produced from column `i` on, together with
a ghost log of the inline label commitments `(column, text)` (the source
builds only the string; the log records at which column each label was
placed, for stating placement properties).  The `pendingLabel &&` truthiness
test in the source is false for `null` and for the empty string, hence the
`s.length ≠ 0` conjunct.  The label-placement branch of the source body is
factored into `tryPlace` so the remainder of the body is written once; when
a label is placed, `i += s.length - 1; continue` plus the loop increment
lands at `i + s.length`.  The recursion is structural on a fuel argument;
callers pass fuel exceeding the iteration count of the source loop. -/
def renderRowAux (markerPositions : List JSNum) (durationLabel : String)
    (barStart barEnd width : JSNum) :
    ℕ → ℕ → Option String → String × List (ℕ × String)
  | 0, _, _ => ("", [])
  | fuel + 1, i, pendingLabel =>
    if jleB (.num i 1) width then
      let isMarker := markerPositions.any (fun p => jsSameValueZeroB p (.num i 1))
      let tryPlace : Option String :=
        match pendingLabel with
        | some s =>
          if s.length ≠ 0 ∧ isMarker = false then
            let labelEnd := i + s.length
            let hasConflict := markerPositions.any
              (fun pos => jltB (.num i 1) pos && jltB pos (.num labelEnd 1))
            if hasConflict then none else some s
          else none
        | none => none
      match tryPlace with
      | some s =>
        let rest := renderRowAux markerPositions durationLabel barStart barEnd width
          fuel (i + s.length) none
        (s ++ rest.1, (i, s) :: rest.2)
      | none =>
        let isInBar := jgeB (.num i 1) barStart && jltB (.num i 1) barEnd
        let cell : String :=
          if isInBar then (if isMarker then "│" else "\u00A0")
          else (if isMarker then "│" else "\u00A0")
        let pendingLabel' :=
          if jsStrictEqB (.num i 1) barEnd ∧ pendingLabel = none then some durationLabel
          else pendingLabel
        let rest := renderRowAux markerPositions durationLabel barStart barEnd width
          fuel (i + 1) pendingLabel'
        (cell ++ rest.1, rest.2)
    else
      match pendingLabel with
      | some s => if s.length ≠ 0 then (s, []) else ("", [])
      | none => ("", [])

/-- Method `renderTaskRow`: the gutter is `taskId.padEnd(labelWidth)`; the
duration label is `formatDuration(endTime - startTime)`; then the column
loop runs over the bar bounds and the shared marker positions.  Returns the
visible row text together with the ghost label-commitment log. -/
def renderTaskRow (tasks : List SummaryTask) (t : SummaryTask)
    (markerPositions : List JSNum) : String × List (ℕ × String) :=
  let label := jsPadEnd t.taskId (labelWidth tasks)
  let durationLabel := formatDuration
    (jsub (.num t.execution.endTime 1) (.num t.execution.startTime 1))
  let bounds := getTaskBarBounds tasks t
  let width := timeToChars tasks (totalDuration tasks)
  let body := renderRowAux markerPositions durationLabel bounds.1 bounds.2 width
    (jsLoopBound width + 2) 0 none
  (label ++ body.1, body.2)

/-- Result of `renderTimeAxis`: the two visible lines plus a ghost log of
the committed timestamp labels `(column, text)`. -/
structure AxisResult where
  markerLine : String
  labelLine : String
  placements : List (ℕ × String)
deriving DecidableEq, Repr

/-- Main `while` loop of `renderTimeAxis`.  The remaining timestamps stand
for `timestamps[tsIndex..]`, so `tsIndex < timestamps.length` is their
nonemptiness and `tsIndex === timestamps.length - 1` is `rest = []`.  When
`currentPos` exceeds the current timestamp position neither branch of the
source body fires and the source loop spins forever; that state is
unreachable for the timestamps this renderer produces (their positions
strictly increase), and this model then returns the state as it stands.
Structural on fuel; callers pass fuel exceeding the iteration count. -/
def renderTimeAxisAux (bound : JSNum) :
    ℕ → ℕ → List (JSNum × String) → String → String → List (ℕ × String) →
    String × String × List (ℕ × String) × ℕ
  | 0, currentPos, _, markerLine, labelLine, pl => (markerLine, labelLine, pl, currentPos)
  | _ + 1, currentPos, [], markerLine, labelLine, pl => (markerLine, labelLine, pl, currentPos)
  | fuel + 1, currentPos, ts :: rest, markerLine, labelLine, pl =>
    if jleB (.num currentPos 1) bound then
      if jltB (.num currentPos 1) ts.1 then
        renderTimeAxisAux bound fuel (currentPos + 1) (ts :: rest)
          (markerLine ++ " ") (labelLine ++ " ") pl
      else if jsStrictEqB (.num currentPos 1) ts.1 then
        let markerLine1 := markerLine ++ "│"
        let labelLine1 := labelLine ++ "│"
        let cp1 := currentPos + 1
        let isLastTimestamp := rest.isEmpty
        let spaceAvailable : JSNum :=
          match rest with
          | [] => .posInf
          | nextTs :: _ => jsub nextTs.1 (.num cp1 1)
        if isLastTimestamp = true ∨ jgeB spaceAvailable (.num (ts.2.length + 1) 1) = true then
          renderTimeAxisAux bound fuel (cp1 + ts.2.length) rest
            (markerLine1 ++ spacesStr ts.2.length) (labelLine1 ++ ts.2) (pl ++ [(cp1, ts.2)])
        else
          renderTimeAxisAux bound fuel cp1 rest markerLine1 labelLine1 pl
      else (markerLine, labelLine, pl, currentPos)
    else (markerLine, labelLine, pl, currentPos)

/-- Trailing `while` loop of `renderTimeAxis` (the final grid line): a
separator exactly at column `labelWidth + width`, spaces elsewhere. -/
def renderTimeAxisTrailing (bound : JSNum) :
    ℕ → ℕ → String → String → String × String
  | 0, _, markerLine, labelLine => (markerLine, labelLine)
  | fuel + 1, currentPos, markerLine, labelLine =>
    if jleB (.num currentPos 1) bound then
      if jsStrictEqB (.num currentPos 1) bound then
        renderTimeAxisTrailing bound fuel (currentPos + 1) (markerLine ++ "│") (labelLine ++ "│")
      else
        renderTimeAxisTrailing bound fuel (currentPos + 1) (markerLine ++ " ") (labelLine ++ " ")
    else (markerLine, labelLine)

/-- Method `renderTimeAxis`.  Both lines start with `" ".repeat(labelWidth)`,
which throws a `RangeError` for a negative count — this is where an empty
task list makes the renderer fail, before any axis output exists.  When the
repeat succeeds, `labelWidth` is a nonnegative integer `L` and the loop
counter `currentPos` starts at it. -/
def renderTimeAxis (tasks : List SummaryTask) : Except String AxisResult :=
  let timestamps := getTimestamps tasks
  let width := timeToChars tasks (totalDuration tasks)
  match jsRepeatCount (labelWidth tasks) with
  | .error e => .error e
  | .ok L =>
    let bound := jadd (labelWidth tasks) width
    let fuel := jsLoopBound bound + timestamps.length + 2
    let r := renderTimeAxisAux bound fuel L timestamps (spacesStr L) (spacesStr L) []
    let fin := renderTimeAxisTrailing bound (jsLoopBound bound + 2) r.2.2.2 r.1 r.2.1
    .ok ⟨fin.1, fin.2, r.2.2.1⟩

/-- Comparator-free model of `group.sort((a, b) => a.startTime - b.startTime)`:
`Array.prototype.sort` with a comparator is a stable sort, modelled as
insertion sort by `≤` on start times (which is stable). -/
def sortByStartTime (g : List SummaryTask) : List SummaryTask :=
  List.insertionSort (fun a b => a.execution.startTime ≤ b.execution.startTime) g

/-- The `Math.min(...group.map(t => t.execution.startTime))` key used to
order groups: minimum start time of a group, `+Infinity` (`⊤`) for an empty
spread. -/
def minStart (g : List SummaryTask) : WithTop ℤ :=
  g.foldr (fun t m => min (t.execution.startTime : WithTop ℤ) m) ⊤

/-- One step of building the package `Map`: append the task to its package's
entry, or append a fresh entry at the end (JavaScript `Map` iteration is in
key-insertion order, so the map is an insertion-ordered association list). -/
def addTaskToGroups : List (String × List SummaryTask) → SummaryTask →
    List (String × List SummaryTask)
  | [], t => [(t.package, [t])]
  | (k, g) :: rest, t =>
    if k = t.package then (k, g ++ [t]) :: rest else (k, g) :: addTaskToGroups rest t

/-- The `packageGroups` map of `groupAndSortTasks`. -/
def packageGroups (tasks : List SummaryTask) : List (String × List SummaryTask) :=
  tasks.foldl addTaskToGroups []

/-- Method `groupAndSortTasks`: group by package, sort each group by start
time, sort the groups by minimum start time (both sorts stable), flatten. -/
def groupAndSortTasks (tasks : List SummaryTask) : List SummaryTask :=
  let sorted := (packageGroups tasks).map (fun kg => (kg.1, sortByStartTime kg.2))
  let sortedGroups := List.insertionSort (fun A B => minStart A.2 ≤ minStart B.2) sorted
  sortedGroups.flatMap (fun kg => kg.2)

/-- The task rows printed by `render`, in order: one row per grouped task,
all consuming the shared marker positions. -/
def renderRows (tasks : List SummaryTask) : List String :=
  (groupAndSortTasks tasks).map (fun t => (renderTaskRow tasks t (getMarkerPositions tasks)).1)

/-- Method `render`: the lines printed in order (task rows first, then the
two-line axis joined by a newline), together with the error of the axis
renderer if it threw — the rows are printed before the axis is built, so on
an axis error the rows alone have been emitted. -/
def render (tasks : List SummaryTask) : List String × Option String :=
  match renderTimeAxis tasks with
  | .ok axis => (renderRows tasks ++ [axis.markerLine ++ "\n" ++ axis.labelLine], none)
  | .error e => (renderRows tasks, some e)


/-! ### Evaluation lemmas for the number model -/

theorem jadd_num_one (a b : ℤ) : jadd (.num a 1) (.num b 1) = .num (a + b) 1 := by
  simp [jadd]

theorem jsub_num_one (a b : ℤ) : jsub (.num a 1) (.num b 1) = .num (a - b) 1 := by
  simp [jsub, jneg, jadd, sub_eq_add_neg]

theorem jmul_num (a b : ℤ) (ad bd : ℕ) :
    jmul (.num a ad) (.num b bd) = .num (a * b) (ad * bd) := rfl

theorem jfloor_num (n : ℤ) (d : ℕ) : jfloor (.num n d) = .num (n.fdiv d) 1 := rfl

theorem jltB_num_one (a b : ℤ) : jltB (.num a 1) (.num b 1) = decide (a < b) := by
  simp [jltB]

theorem jleB_num_one (a b : ℤ) : jleB (.num a 1) (.num b 1) = decide (a ≤ b) := by
  simp [jleB]

theorem jsStrictEqB_num_one (a b : ℤ) :
    jsStrictEqB (.num a 1) (.num b 1) = decide (a = b) := by
  simp [jsStrictEqB]

theorem jdiv_num_one_pos (a b : ℤ) (hb : 0 < b) :
    jdiv (.num a 1) (.num b 1) = .num a b.toNat := by
  simp [jdiv, hb, hb.ne']

theorem jmin_num_one (a b : ℤ) : jmin (.num a 1) (.num b 1) = .num (min a b) 1 := by
  by_cases h : b < a <;> simp [jmin, jltB, h] <;> omega

theorem jmax_num_one (a b : ℤ) : jmax (.num a 1) (.num b 1) = .num (max a b) 1 := by
  by_cases h : a < b <;> simp [jmax, jltB, h] <;> omega

theorem jmin_num_posInf (a : ℤ) (d : ℕ) : jmin (.num a d) .posInf = .num a d := by
  simp [jmin, jltB]

theorem jmax_num_negInf (a : ℤ) (d : ℕ) : jmax (.num a d) .negInf = .num a d := by
  simp [jmax, jltB]

/-- A spread minimum of integers is attained and bounds every element. -/
theorem jsMinList_int_spec (xs : List ℤ) (hne : xs ≠ []) :
    ∃ S, jsMinList (xs.map (fun v => JSNum.num v 1)) = .num S 1 ∧
      S ∈ xs ∧ ∀ x ∈ xs, S ≤ x := by
  induction xs with
  | nil => exact absurd rfl hne
  | cons x xs ih =>
    cases xs with
    | nil =>
      refine ⟨x, ?_, by simp, by simp⟩
      simp [jsMinList, jmin_num_posInf]
    | cons y ys =>
      obtain ⟨S, hS, hmem, hbound⟩ := ih (by simp)
      have step : jsMinList ((x :: y :: ys).map (fun v => JSNum.num v 1)) =
          jmin (.num x 1) (jsMinList ((y :: ys).map (fun v => JSNum.num v 1))) := rfl
      rw [step, hS, jmin_num_one]
      rcases le_total x S with h | h
      · exact ⟨x, by rw [min_eq_left h], by simp, by
          intro z hz
          rcases List.mem_cons.mp hz with rfl | hz
          · exact le_refl _
          · exact le_trans h (hbound z hz)⟩
      · exact ⟨S, by rw [min_eq_right h], List.mem_cons_of_mem _ hmem, by
          intro z hz
          rcases List.mem_cons.mp hz with rfl | hz
          · exact h
          · exact hbound z hz⟩

/-- A spread maximum of integers is attained and bounds every element. -/
theorem jsMaxList_int_spec (xs : List ℤ) (hne : xs ≠ []) :
    ∃ E, jsMaxList (xs.map (fun v => JSNum.num v 1)) = .num E 1 ∧
      E ∈ xs ∧ ∀ x ∈ xs, x ≤ E := by
  induction xs with
  | nil => exact absurd rfl hne
  | cons x xs ih =>
    cases xs with
    | nil =>
      refine ⟨x, ?_, by simp, by simp⟩
      simp [jsMaxList, jmax_num_negInf]
    | cons y ys =>
      obtain ⟨E, hE, hmem, hbound⟩ := ih (by simp)
      have step : jsMaxList ((x :: y :: ys).map (fun v => JSNum.num v 1)) =
          jmax (.num x 1) (jsMaxList ((y :: ys).map (fun v => JSNum.num v 1))) := rfl
      rw [step, hE, jmax_num_one]
      rcases le_total x E with h | h
      · exact ⟨E, by rw [max_eq_right h], List.mem_cons_of_mem _ hmem, by
          intro z hz
          rcases List.mem_cons.mp hz with rfl | hz
          · exact h
          · exact hbound z hz⟩
      · exact ⟨x, by rw [max_eq_left h], by simp, by
          intro z hz
          rcases List.mem_cons.mp hz with rfl | hz
          · exact le_refl _
          · exact le_trans (hbound z hz) h⟩

/-! ### Scale-calculator characterizations (nonempty task list, positive duration) -/

/-- On a nonempty task list the global start time is the attained minimum. -/
theorem rendererStartTime_spec (tasks : List SummaryTask) (hne : tasks ≠ []) :
    ∃ S, rendererStartTime tasks = .num S 1 ∧
      (∃ t0 ∈ tasks, S = t0.execution.startTime) ∧
      ∀ t ∈ tasks, S ≤ t.execution.startTime := by
  obtain ⟨S, hS, hmem, hbound⟩ :=
    jsMinList_int_spec (tasks.map (fun t => t.execution.startTime)) (by simpa using hne)
  refine ⟨S, ?_, ?_, ?_⟩
  · rw [rendererStartTime, ← hS, List.map_map]
    rfl
  · obtain ⟨t0, ht0, he⟩ := List.mem_map.mp hmem
    exact ⟨t0, ht0, he.symm⟩
  · intro t ht
    exact hbound _ (List.mem_map_of_mem _ ht)

/-- On a nonempty task list the global end time is the attained maximum. -/
theorem rendererEndTime_spec (tasks : List SummaryTask) (hne : tasks ≠ []) :
    ∃ E, rendererEndTime tasks = .num E 1 ∧
      (∃ t0 ∈ tasks, E = t0.execution.endTime) ∧
      ∀ t ∈ tasks, t.execution.endTime ≤ E := by
  obtain ⟨E, hE, hmem, hbound⟩ :=
    jsMaxList_int_spec (tasks.map (fun t => t.execution.endTime)) (by simpa using hne)
  refine ⟨E, ?_, ?_, ?_⟩
  · rw [rendererEndTime, ← hE, List.map_map]
    rfl
  · obtain ⟨t0, ht0, he⟩ := List.mem_map.mp hmem
    exact ⟨t0, ht0, he.symm⟩
  · intro t ht
    exact hbound _ (List.mem_map_of_mem _ ht)

/-- On a nonempty task list all scale quantities are integers; `d` is the
difference of the attained extrema and bounds every task interval. -/
theorem totalDuration_spec (tasks : List SummaryTask) (hne : tasks ≠ []) :
    ∃ S E : ℤ, rendererStartTime tasks = .num S 1 ∧ rendererEndTime tasks = .num E 1 ∧
      totalDuration tasks = .num (E - S) 1 ∧
      (∀ t ∈ tasks, S ≤ t.execution.startTime ∧ t.execution.endTime ≤ E) := by
  obtain ⟨S, hS, _, hSb⟩ := rendererStartTime_spec tasks hne
  obtain ⟨E, hE, _, hEb⟩ := rendererEndTime_spec tasks hne
  refine ⟨S, E, hS, hE, ?_, fun t ht => ⟨hSb t ht, hEb t ht⟩⟩
  rw [totalDuration, hS, hE, jsub_num_one]

/-- With a positive integral total duration `d`, the scale factor is the
exact fraction `100 / d`. -/
theorem msToChars_spec (tasks : List SummaryTask) (d : ℤ)
    (hD : totalDuration tasks = .num d 1) (hd : 0 < d) :
    msToChars tasks = .num 100 d.toNat := by
  rw [msToChars, hD]
  have : ((CONFIG.TIMELINE_WIDTH : ℤ)) = 100 := rfl
  rw [this, jdiv_num_one_pos _ _ hd]

/-- `timeToChars` on an integer millisecond count is the floor of `m * 100 / d`. -/
theorem timeToChars_int (tasks : List SummaryTask) (d : ℤ)
    (hD : totalDuration tasks = .num d 1) (hd : 0 < d) (m : ℤ) :
    timeToChars tasks (.num m 1) = .num ((m * 100).fdiv d) 1 := by
  rw [timeToChars, msToChars_spec tasks d hD hd, jmul_num, jfloor_num]
  congr 1
  · congr 1
    simp [Int.toNat_of_nonneg hd.le]

/-! ### Row-loop branch equations -/

theorem renderRowAux_step_exit (mp : List JSNum) (dl : String) (bs be w : JSNum)
    (fuel i : ℕ) (pending : Option String)
    (hle : jleB (.num i 1) w = false) :
    renderRowAux mp dl bs be w (fuel + 1) i pending =
      (match pending with
       | some s => if s.length ≠ 0 then (s, []) else ("", [])
       | none => ("", [])) := by
  cases pending <;> (rw [renderRowAux, if_neg (by simp [hle])])

theorem renderRowAux_step_cell_none (mp : List JSNum) (dl : String) (bs be w : JSNum)
    (fuel i : ℕ) (hle : jleB (.num i 1) w = true) :
    renderRowAux mp dl bs be w (fuel + 1) i none =
      (((if mp.any (fun p => jsSameValueZeroB p (.num i 1)) then "│" else "\u00A0") ++
          (renderRowAux mp dl bs be w fuel (i + 1)
            (if jsStrictEqB (.num i 1) be then some dl else none)).1),
        (renderRowAux mp dl bs be w fuel (i + 1)
          (if jsStrictEqB (.num i 1) be then some dl else none)).2) := by
  rw [renderRowAux, if_pos (by simp [hle])]
  simp only [ite_self, and_true]

theorem renderRowAux_step_place (mp : List JSNum) (dl : String) (bs be w : JSNum)
    (fuel i : ℕ) (s : String) (hle : jleB (.num i 1) w = true)
    (hlen : s.length ≠ 0)
    (hm : mp.any (fun p => jsSameValueZeroB p (.num i 1)) = false)
    (hc : mp.any (fun pos => jltB (.num i 1) pos &&
      jltB pos (.num ((i + s.length : ℕ) : ℤ) 1)) = false) :
    renderRowAux mp dl bs be w (fuel + 1) i (some s) =
      ((s ++ (renderRowAux mp dl bs be w fuel (i + s.length) none).1),
        (i, s) :: (renderRowAux mp dl bs be w fuel (i + s.length) none).2) := by
  simp only [renderRowAux]
  rw [if_pos (show jleB (.num i 1) w = true from hle)]
  have h1 : s.length ≠ 0 ∧ (mp.any fun p => jsSameValueZeroB p (.num i 1)) = false :=
    ⟨hlen, hm⟩
  rw [if_pos h1, hc]
  simp

theorem renderRowAux_step_cell_some (mp : List JSNum) (dl : String) (bs be w : JSNum)
    (fuel i : ℕ) (s : String) (hle : jleB (.num i 1) w = true)
    (hblock : s.length = 0 ∨
      mp.any (fun p => jsSameValueZeroB p (.num i 1)) = true ∨
      mp.any (fun pos => jltB (.num i 1) pos &&
        jltB pos (.num ((i + s.length : ℕ) : ℤ) 1)) = true) :
    renderRowAux mp dl bs be w (fuel + 1) i (some s) =
      (((if mp.any (fun p => jsSameValueZeroB p (.num i 1)) then "│" else "\u00A0") ++
          (renderRowAux mp dl bs be w fuel (i + 1) (some s)).1),
        (renderRowAux mp dl bs be w fuel (i + 1) (some s)).2) := by
  simp only [renderRowAux]
  rw [if_pos (show jleB (.num i 1) w = true from hle)]
  have hcell : ∀ r : String × List (ℕ × String),
      ((match (none : Option String) with
        | some s2 =>
          (s2 ++ (renderRowAux mp dl bs be w fuel (i + s2.length) none).1,
            (i, s2) :: (renderRowAux mp dl bs be w fuel (i + s2.length) none).2)
        | none => r) = r) := fun r => rfl
  by_cases houter : s.length ≠ 0 ∧ (mp.any fun p => jsSameValueZeroB p (.num i 1)) = false
  · have hcon : mp.any (fun pos => jltB (.num i 1) pos &&
        jltB pos (.num ((i + s.length : ℕ) : ℤ) 1)) = true := by
      rcases hblock with h | h | h
      · exact absurd h houter.1
      · rw [houter.2] at h
        exact absurd h (by simp)
      · exact h
    rw [if_pos houter, hcon]
    simp only [ite_self, if_true, and_false, reduceCtorEq, if_false]
  · rw [if_neg houter]
    simp only [ite_self, and_false, reduceCtorEq, if_false]

/-! ### Row-loop invariants -/

/-- When the final marker column 100 is among the marker positions, a label
that the scan is willing to commit at column `i ≤ 100` fits left of it. -/
theorem place_bound (mp : List JSNum) (W : ℕ) (hmem : JSNum.num (W : ℤ) 1 ∈ mp) (i len : ℕ)
    (hm : mp.any (fun p => jsSameValueZeroB p (.num i 1)) = false)
    (hc : mp.any (fun pos => jltB (.num i 1) pos &&
      jltB pos (.num ((i + len : ℕ) : ℤ) 1)) = false)
    (hi : i ≤ W) : i < W ∧ i + len ≤ W := by
  have h1 := (List.any_eq_false.mp hm) _ hmem
  have hne : i ≠ W := by
    intro h
    subst h
    simp [jsSameValueZeroB] at h1
  have hi' : i < W := lt_of_le_of_ne hi hne
  refine ⟨hi', ?_⟩
  have h2 := (List.any_eq_false.mp hc) _ hmem
  by_cases hover : W < i + len
  · exfalso
    apply h2
    simp only [jltB, Bool.and_eq_true, decide_eq_true_eq]
    refine ⟨by push_cast; omega, by push_cast; omega⟩
  · omega

/-- Every inline label commitment of the row loop occupies only columns at
which no marker position falls, provided the marker positions are integer
columns (as the real marker set is). -/
theorem renderRowAux_placements_clear (mp : List JSNum) (dl : String) (bs be w : JSNum)
    (hmp : ∀ p ∈ mp, ∃ c : ℤ, p = .num c 1) :
    ∀ fuel i pending, ∀ pr ∈ (renderRowAux mp dl bs be w fuel i pending).2,
    ∀ j, j < pr.2.length →
      mp.any (fun p => jsSameValueZeroB p (.num ((pr.1 + j : ℕ) : ℤ) 1)) = false := by
  intro fuel
  induction fuel with
  | zero =>
    intro i pending pr hpr
    simp [renderRowAux] at hpr
  | succ fuel ih =>
    intro i pending pr hpr j hj
    by_cases hle : jleB (.num i 1) w = true
    · rcases pending with _ | s
      · rw [renderRowAux_step_cell_none mp dl bs be w fuel i hle] at hpr
        exact ih _ _ pr hpr j hj
      · by_cases hA : s.length ≠ 0 ∧
            (mp.any (fun p => jsSameValueZeroB p (.num i 1))) = false ∧
            (mp.any (fun pos => jltB (.num i 1) pos &&
              jltB pos (.num ((i + s.length : ℕ) : ℤ) 1))) = false
        · rw [renderRowAux_step_place mp dl bs be w fuel i s hle hA.1 hA.2.1 hA.2.2] at hpr
          rcases List.mem_cons.mp hpr with rfl | hpr
          · -- the commitment made at this step
            have hj2 : j < s.length := hj
            show mp.any (fun p => jsSameValueZeroB p (.num ((i + j : ℕ) : ℤ) 1)) = false
            rcases Nat.eq_zero_or_pos j with rfl | hjpos
            · simpa using hA.2.1
            · rw [List.any_eq_false]
              intro p hp
              obtain ⟨c, rfl⟩ := hmp p hp
              simp only [jsSameValueZeroB, decide_eq_true_eq]
              intro hcv
              have hcv' : c = ((i + j : ℕ) : ℤ) := by
                push_cast at hcv ⊢
                omega
              have h2 := (List.any_eq_false.mp hA.2.2) _ hp
              apply h2
              simp only [jltB, Bool.and_eq_true, decide_eq_true_eq]
              refine ⟨by rw [hcv']; push_cast; omega, by rw [hcv']; push_cast; omega⟩
          · exact ih _ _ pr hpr j hj
        · have hblock : s.length = 0 ∨
              mp.any (fun p => jsSameValueZeroB p (.num i 1)) = true ∨
              mp.any (fun pos => jltB (.num i 1) pos &&
                jltB pos (.num ((i + s.length : ℕ) : ℤ) 1)) = true := by
            by_cases h1 : s.length = 0
            · exact Or.inl h1
            · by_cases h2 : mp.any (fun p => jsSameValueZeroB p (.num i 1)) = true
              · exact Or.inr (Or.inl h2)
              · refine Or.inr (Or.inr ?_)
                rcases Bool.eq_false_or_eq_true (mp.any (fun pos => jltB (.num i 1) pos &&
                    jltB pos (.num ((i + s.length : ℕ) : ℤ) 1))) with h3 | h3
                · exact h3
                · exact absurd ⟨h1, Bool.eq_false_iff.mpr (fun he => h2 he), h3⟩ hA
          rw [renderRowAux_step_cell_some mp dl bs be w fuel i s hle hblock] at hpr
          exact ih _ _ pr hpr j hj
    · rw [renderRowAux_step_exit mp dl bs be w fuel i pending
        (Bool.eq_false_iff.mpr (fun he => hle he))] at hpr
      rcases pending with _ | s
      · simp at hpr
      · by_cases h : s.length ≠ 0 <;> simp [h] at hpr

theorem renderRowAux_step_exit_fst (mp : List JSNum) (dl : String) (bs be w : JSNum)
    (fuel i : ℕ) (pending : Option String)
    (hle : jleB (.num i 1) w = false) :
    (renderRowAux mp dl bs be w (fuel + 1) i pending).1 =
      (match pending with
       | some s => if s.length ≠ 0 then s else ""
       | none => "") := by
  rw [renderRowAux_step_exit mp dl bs be w fuel i pending hle]
  cases pending with
  | none => rfl
  | some s =>
    by_cases h : s.length ≠ 0 <;> simp [h]

theorem renderRowAux_step_cell_none_fst (mp : List JSNum) (dl : String) (bs be w : JSNum)
    (fuel i : ℕ) (hle : jleB (.num i 1) w = true) :
    (renderRowAux mp dl bs be w (fuel + 1) i none).1 =
      (if mp.any (fun p => jsSameValueZeroB p (.num i 1)) then "│" else "\u00A0") ++
        (renderRowAux mp dl bs be w fuel (i + 1)
          (if jsStrictEqB (.num i 1) be then some dl else none)).1 := by
  rw [renderRowAux_step_cell_none mp dl bs be w fuel i hle]

theorem renderRowAux_step_place_fst (mp : List JSNum) (dl : String) (bs be w : JSNum)
    (fuel i : ℕ) (s : String) (hle : jleB (.num i 1) w = true)
    (hlen : s.length ≠ 0)
    (hm : mp.any (fun p => jsSameValueZeroB p (.num i 1)) = false)
    (hc : mp.any (fun pos => jltB (.num i 1) pos &&
      jltB pos (.num ((i + s.length : ℕ) : ℤ) 1)) = false) :
    (renderRowAux mp dl bs be w (fuel + 1) i (some s)).1 =
      s ++ (renderRowAux mp dl bs be w fuel (i + s.length) none).1 := by
  rw [renderRowAux_step_place mp dl bs be w fuel i s hle hlen hm hc]

theorem renderRowAux_step_cell_some_fst (mp : List JSNum) (dl : String) (bs be w : JSNum)
    (fuel i : ℕ) (s : String) (hle : jleB (.num i 1) w = true)
    (hblock : s.length = 0 ∨
      mp.any (fun p => jsSameValueZeroB p (.num i 1)) = true ∨
      mp.any (fun pos => jltB (.num i 1) pos &&
        jltB pos (.num ((i + s.length : ℕ) : ℤ) 1)) = true) :
    (renderRowAux mp dl bs be w (fuel + 1) i (some s)).1 =
      (if mp.any (fun p => jsSameValueZeroB p (.num i 1)) then "│" else "\u00A0") ++
        (renderRowAux mp dl bs be w fuel (i + 1) (some s)).1 := by
  rw [renderRowAux_step_cell_some mp dl bs be w fuel i s hle hblock]

/-- A disjunction splitting helper: when the inline placement of a pending
label is not taken, one of its three guards blocks it. -/
theorem rowBlock_of_not (mp : List JSNum) (i : ℕ) (s : String)
    (hA : ¬ (s.length ≠ 0 ∧
      (mp.any (fun p => jsSameValueZeroB p (.num i 1))) = false ∧
      (mp.any (fun pos => jltB (.num i 1) pos &&
        jltB pos (.num ((i + s.length : ℕ) : ℤ) 1))) = false)) :
    s.length = 0 ∨
      mp.any (fun p => jsSameValueZeroB p (.num i 1)) = true ∨
      mp.any (fun pos => jltB (.num i 1) pos &&
        jltB pos (.num ((i + s.length : ℕ) : ℤ) 1)) = true := by
  by_cases h1 : s.length = 0
  · exact Or.inl h1
  · by_cases h2 : mp.any (fun p => jsSameValueZeroB p (.num i 1)) = true
    · exact Or.inr (Or.inl h2)
    · refine Or.inr (Or.inr ?_)
      rcases Bool.eq_false_or_eq_true (mp.any (fun pos => jltB (.num i 1) pos &&
          jltB pos (.num ((i + s.length : ℕ) : ℤ) 1))) with h3 | h3
      · exact h3
      · exact absurd ⟨h1, Bool.eq_false_iff.mpr (fun he => h2 he), h3⟩ hA

/-- The last column `W` of the row loop (for any integral width `W`, as the
marker set always contains the width) is always rendered as the vertical
separator: from any start column `i ≤ W`, the characters produced before it
are exactly the columns `i .. W - 1`. -/
theorem renderRowAux_last_column (mp : List JSNum) (dl : String) (bs be : JSNum) (W : ℕ)
    (hmem : JSNum.num (W : ℤ) 1 ∈ mp) :
    ∀ fuel i pending, i ≤ W → W + 2 - i ≤ fuel →
    ∃ pre post,
      (renderRowAux mp dl bs be (.num (W : ℤ) 1) fuel i pending).1.data = pre ++ '│' :: post ∧
      pre.length = W - i := by
  intro fuel
  induction fuel with
  | zero => intro i pending hi hf; omega
  | succ fuel ih =>
    intro i pending hi hf
    have hle : jleB (.num i 1) (.num (W : ℤ) 1) = true := by
      rw [jleB_num_one]
      simp only [decide_eq_true_eq]
      exact_mod_cast hi
    have hMtrue : i = W →
        mp.any (fun p => jsSameValueZeroB p (.num i 1)) = true := by
      intro h
      subst h
      refine List.any_eq_true.mpr ⟨_, hmem, ?_⟩
      simp [jsSameValueZeroB]
    have hcellLen : ∀ b : Bool, ((if b then "│" else "\u00A0") : String).data.length = 1 := by
      intro b
      cases b
      · rfl
      · rfl
    have hsplit : ∀ X : String, ("│" ++ X).data = [] ++ '│' :: X.data := fun X => by
      rw [String.data_append]
      rfl
    rcases pending with _ | s
    · rw [renderRowAux_step_cell_none_fst mp dl bs be _ fuel i hle]
      by_cases hieq : i = W
      · subst hieq
        rw [if_pos (hMtrue rfl)]
        exact ⟨[], _, hsplit _, by simp⟩
      · obtain ⟨pre, post, hdata, hlen⟩ := ih (i + 1)
          (if jsStrictEqB (.num i 1) be then some dl else none) (by omega) (by omega)
        refine ⟨(if mp.any (fun p => jsSameValueZeroB p (.num i 1)) then "│"
            else "\u00A0").data ++ pre, post, ?_, ?_⟩
        · rw [String.data_append, hdata, List.append_assoc]
        · rw [List.length_append, hcellLen, hlen]
          omega
    · by_cases hA : s.length ≠ 0 ∧
          (mp.any (fun p => jsSameValueZeroB p (.num i 1))) = false ∧
          (mp.any (fun pos => jltB (.num i 1) pos &&
            jltB pos (.num ((i + s.length : ℕ) : ℤ) 1))) = false
      · rw [renderRowAux_step_place_fst mp dl bs be _ fuel i s hle hA.1 hA.2.1 hA.2.2]
        obtain ⟨hilt, hbound⟩ := place_bound mp W hmem i s.length hA.2.1 hA.2.2 hi
        obtain ⟨pre, post, hdata, hlen⟩ := ih (i + s.length) none (by omega) (by omega)
        refine ⟨s.data ++ pre, post, ?_, ?_⟩
        · rw [String.data_append, hdata, List.append_assoc]
        · rw [List.length_append, hlen]
          have hsl : s.data.length = s.length := rfl
          omega
      · rw [renderRowAux_step_cell_some_fst mp dl bs be _ fuel i s hle (rowBlock_of_not mp i s hA)]
        by_cases hieq : i = W
        · subst hieq
          rw [if_pos (hMtrue rfl)]
          exact ⟨[], _, hsplit _, by simp⟩
        · obtain ⟨pre, post, hdata, hlen⟩ := ih (i + 1) (some s) (by omega) (by omega)
          refine ⟨(if mp.any (fun p => jsSameValueZeroB p (.num i 1)) then "│"
              else "\u00A0").data ++ pre, post, ?_, ?_⟩
          · rw [String.data_append, hdata, List.append_assoc]
          · rw [List.length_append, hcellLen, hlen]
            omega

/-- A nonempty pending label is eventually emitted: it lands inline at some
scanned column or is flushed after the loop. -/
theorem renderRowAux_pending_infix (mp : List JSNum) (dl : String) (bs be : JSNum) (W : ℕ) :
    ∀ fuel i s, s.length ≠ 0 → i ≤ W + 1 → W + 2 - i ≤ fuel →
    s.data <:+: (renderRowAux mp dl bs be (.num (W : ℤ) 1) fuel i (some s)).1.data := by
  intro fuel
  induction fuel with
  | zero => intro i s hs hi hf; omega
  | succ fuel ih =>
    intro i s hs hi hf
    by_cases hle : jleB (.num i 1) (.num (W : ℤ) 1) = true
    · have hi100 : i ≤ W := by
        rw [jleB_num_one] at hle
        simp only [decide_eq_true_eq] at hle
        exact_mod_cast hle
      by_cases hA : s.length ≠ 0 ∧
          (mp.any (fun p => jsSameValueZeroB p (.num i 1))) = false ∧
          (mp.any (fun pos => jltB (.num i 1) pos &&
            jltB pos (.num ((i + s.length : ℕ) : ℤ) 1))) = false
      · rw [renderRowAux_step_place_fst mp dl bs be _ fuel i s hle hA.1 hA.2.1 hA.2.2]
        rw [String.data_append]
        exact (List.prefix_append _ _).isInfix
      · rw [renderRowAux_step_cell_some_fst mp dl bs be _ fuel i s hle (rowBlock_of_not mp i s hA)]
        rw [String.data_append]
        obtain ⟨a, b, hab⟩ := ih (i + 1) s hs (by omega) (by omega)
        refine ⟨(if mp.any (fun p => jsSameValueZeroB p (.num i 1)) then "│"
          else "\u00A0").data ++ a, b, ?_⟩
        rw [← hab]
        simp [List.append_assoc]
    · rw [renderRowAux_step_exit_fst mp dl bs be _ fuel i (some s)
        (Bool.eq_false_iff.mpr (fun he => hle he))]
      simp only [hs, ne_eq, not_false_eq_true, if_true]
      exact List.infix_refl _

/-- Starting with no pending label and the bar end at an integral column
`e ≤ W` still ahead of an integral width `W`, the duration label is
eventually emitted in the row. -/
theorem renderRowAux_label_emitted (mp : List JSNum) (dl : String) (bs : JSNum) (e : ℤ)
    (W : ℕ) (hdl : dl.length ≠ 0) (he : e ≤ (W : ℤ)) :
    ∀ (fuel i : ℕ), (i : ℤ) ≤ e → W + 2 - i ≤ fuel →
    dl.data <:+: (renderRowAux mp dl bs (.num e 1) (.num (W : ℤ) 1) fuel i none).1.data := by
  intro fuel
  induction fuel with
  | zero =>
    intro i hi hf
    have : (i : ℤ) ≤ (W : ℤ) := le_trans hi he
    omega
  | succ fuel ih =>
    intro i hi hf
    have hi100 : i ≤ W := by
      have : (i : ℤ) ≤ (W : ℤ) := le_trans hi he
      exact_mod_cast this
    have hle : jleB (.num i 1) (.num (W : ℤ) 1) = true := by
      rw [jleB_num_one]
      simp only [decide_eq_true_eq]
      exact_mod_cast hi100
    rw [renderRowAux_step_cell_none_fst mp dl bs _ _ fuel i hle]
    rw [String.data_append]
    by_cases hieq : (i : ℤ) = e
    · have hstrict : jsStrictEqB (.num (i : ℤ) 1) (.num e 1) = true := by
        rw [jsStrictEqB_num_one]
        simp [hieq]
      rw [hstrict, if_pos rfl]
      obtain ⟨a, b, hab⟩ := renderRowAux_pending_infix mp dl bs (.num e 1) W fuel (i + 1) dl hdl
        (by omega) (by omega)
      refine ⟨(if mp.any (fun p => jsSameValueZeroB p (.num i 1)) then "│"
        else " ").data ++ a, b, ?_⟩
      rw [← hab]
      simp [List.append_assoc]
    · have hstrict : jsStrictEqB (.num (i : ℤ) 1) (.num e 1) = false := by
        rw [jsStrictEqB_num_one]
        simp [hieq]
      rw [hstrict, if_neg (show ¬ ((false : Bool) = true) by simp)]
      have hlt : (i : ℤ) < e := lt_of_le_of_ne hi hieq
      obtain ⟨a, b, hab⟩ := ih (i + 1) (by push_cast; omega) (by omega)
      refine ⟨(if mp.any (fun p => jsSameValueZeroB p (.num i 1)) then "│"
        else " ").data ++ a, b, ?_⟩
      rw [← hab]
      simp [List.append_assoc]

/-! ### Axis-loop invariants -/

/-- Shape of the timestamp-list suffix the axis loop consumes: integer
columns, each at least `lo`, strictly increasing, at most `B`, and the last
exactly `B`. -/
def axisChain (B : ℤ) : ℤ → List (JSNum × String) → Prop
  | _, [] => True
  | lo, ts :: rest => ∃ q : ℤ, ts.1 = .num q 1 ∧ lo ≤ q ∧ q ≤ B ∧
      (rest = [] → q = B) ∧ axisChain B (q + 1) rest

theorem renderTimeAxisAux_step_space (bound : JSNum) (fuel cp : ℕ)
    (ts : JSNum × String) (rest : List (JSNum × String)) (mk lb : String)
    (pl : List (ℕ × String))
    (hle : jleB (.num cp 1) bound = true) (hlt : jltB (.num cp 1) ts.1 = true) :
    renderTimeAxisAux bound (fuel + 1) cp (ts :: rest) mk lb pl =
      renderTimeAxisAux bound fuel (cp + 1) (ts :: rest) (mk ++ " ") (lb ++ " ") pl := by
  rw [renderTimeAxisAux, if_pos (show jleB (.num cp 1) bound = true from hle),
    if_pos (show jltB (.num cp 1) ts.1 = true from hlt)]

theorem renderTimeAxisAux_step_place (bound : JSNum) (fuel cp : ℕ)
    (ts : JSNum × String) (rest : List (JSNum × String)) (mk lb : String)
    (pl : List (ℕ × String))
    (hle : jleB (.num cp 1) bound = true) (hlt : jltB (.num cp 1) ts.1 = false)
    (heq : jsStrictEqB (.num cp 1) ts.1 = true)
    (hcond : rest.isEmpty = true ∨
      jgeB (match rest with
            | [] => JSNum.posInf
            | nextTs :: _ => jsub nextTs.1 (.num ((cp + 1 : ℕ) : ℤ) 1))
        (.num (ts.2.length + 1) 1) = true) :
    renderTimeAxisAux bound (fuel + 1) cp (ts :: rest) mk lb pl =
      renderTimeAxisAux bound fuel (cp + 1 + ts.2.length) rest
        (mk ++ "│" ++ spacesStr ts.2.length) (lb ++ "│" ++ ts.2)
        (pl ++ [(cp + 1, ts.2)]) := by
  simp only [renderTimeAxisAux]
  rw [if_pos (show jleB (.num cp 1) bound = true from hle),
    if_neg (show ¬ jltB (.num cp 1) ts.1 = true by simp [hlt]),
    if_pos (show jsStrictEqB (.num cp 1) ts.1 = true from heq), if_pos hcond]

theorem renderTimeAxisAux_step_skip (bound : JSNum) (fuel cp : ℕ)
    (ts : JSNum × String) (rest : List (JSNum × String)) (mk lb : String)
    (pl : List (ℕ × String))
    (hle : jleB (.num cp 1) bound = true) (hlt : jltB (.num cp 1) ts.1 = false)
    (heq : jsStrictEqB (.num cp 1) ts.1 = true)
    (hcond : ¬ (rest.isEmpty = true ∨
      jgeB (match rest with
            | [] => JSNum.posInf
            | nextTs :: _ => jsub nextTs.1 (.num ((cp + 1 : ℕ) : ℤ) 1))
        (.num (ts.2.length + 1) 1) = true)) :
    renderTimeAxisAux bound (fuel + 1) cp (ts :: rest) mk lb pl =
      renderTimeAxisAux bound fuel (cp + 1) rest (mk ++ "│") (lb ++ "│") pl := by
  simp only [renderTimeAxisAux]
  rw [if_pos (show jleB (.num cp 1) bound = true from hle),
    if_neg (show ¬ jltB (.num cp 1) ts.1 = true by simp [hlt]),
    if_pos (show jsStrictEqB (.num cp 1) ts.1 = true from heq), if_neg hcond]

theorem renderTimeAxisTrailing_noop (B : ℤ) (fuel cp : ℕ) (mk lb : String)
    (h : B < cp) :
    renderTimeAxisTrailing (.num B 1) fuel cp mk lb = (mk, lb) := by
  cases fuel with
  | zero => rfl
  | succ fuel =>
    rw [renderTimeAxisTrailing,
      if_neg (show ¬ jleB (.num cp 1) (.num B 1) = true by
        rw [jleB_num_one]
        simp
        omega)]

theorem renderTimeAxisAux_nil (bound : JSNum) (fuel cp : ℕ) (mk lb : String)
    (pl : List (ℕ × String)) :
    renderTimeAxisAux bound fuel cp [] mk lb pl = (mk, lb, pl, cp) := by
  cases fuel <;> rfl

theorem spacesStr_data_length (k : ℕ) : (spacesStr k).data.length = k := by
  simp [spacesStr]

theorem data_get_marker (X suffix : String) :
    ((X ++ "│") ++ suffix).data.get? X.data.length = some '│' := by
  rw [String.data_append, String.data_append,
    List.get?_append (by simp), List.get?_append_right (le_refl _)]
  simp

theorem data_length_append (s t : String) :
    (s ++ t).data.length = s.data.length + t.data.length := by
  rw [String.data_append, List.length_append]

/-- Main invariant of the axis loop: when the remaining timestamps form a
chain ending exactly at the bound `B`, the loop writes the final separator
of both lines at column `B`, finishes beyond `B`, and commits its labels at
non-overlapping, non-decreasing columns. -/
theorem renderTimeAxisAux_spec (B : ℕ) :
    ∀ (fuel cp : ℕ) (rest : List (JSNum × String)) (mk lb : String) (pl : List (ℕ × String)),
    axisChain (B : ℤ) (cp : ℤ) rest →
    mk.data.length = cp → lb.data.length = cp →
    B + 2 - cp + rest.length ≤ fuel →
    (rest ≠ [] →
      (renderTimeAxisAux (.num B 1) fuel cp rest mk lb pl).1.data.get? B = some '│' ∧
      (renderTimeAxisAux (.num B 1) fuel cp rest mk lb pl).2.1.data.get? B = some '│' ∧
      B < (renderTimeAxisAux (.num B 1) fuel cp rest mk lb pl).2.2.2) ∧
    ∃ new, (renderTimeAxisAux (.num B 1) fuel cp rest mk lb pl).2.2.1 = pl ++ new ∧
      (∀ x ∈ new, cp ≤ x.1) ∧
      new.Pairwise (fun a b => a.1 + a.2.length ≤ b.1) := by
  intro fuel
  induction fuel with
  | zero =>
    intro cp rest mk lb pl hch hmk hlb hf
    constructor
    · intro hne
      exfalso
      cases rest with
      | nil => exact hne rfl
      | cons ts rest' =>
        obtain ⟨q, _, hloq, hqB, _, _⟩ := hch
        have : cp ≤ B := by exact_mod_cast le_trans hloq hqB
        simp only [List.length_cons] at hf
        omega
    · refine ⟨[], ?_, by simp, by simp⟩
      simp [renderTimeAxisAux]
  | succ fuel ih =>
    intro cp rest mk lb pl hch hmk hlb hf
    cases rest with
    | nil =>
      constructor
      · intro h
        exact absurd rfl h
      · refine ⟨[], ?_, by simp, by simp⟩
        rw [renderTimeAxisAux_nil]
        simp
    | cons ts rest' =>
      obtain ⟨q, hts, hloq, hqB, hlast, hch'⟩ := hch
      have hcpB : cp ≤ B := by exact_mod_cast le_trans hloq hqB
      have hle : jleB (.num cp 1) (.num (B : ℕ) 1) = true := by
        rw [jleB_num_one]
        simp only [decide_eq_true_eq]
        exact_mod_cast hcpB
      by_cases hcq : (cp : ℤ) < q
      · -- column strictly before the current timestamp: emit spaces
        have hlt : jltB (.num cp 1) ts.1 = true := by
          rw [hts, jltB_num_one]
          simp only [decide_eq_true_eq]
          exact hcq
        rw [renderTimeAxisAux_step_space _ fuel cp ts rest' mk lb pl hle hlt]
        have hq1 : ((cp + 1 : ℕ) : ℤ) ≤ q := by push_cast; omega
        have hch2 : axisChain (B : ℤ) ((cp + 1 : ℕ) : ℤ) (ts :: rest') :=
          ⟨q, hts, hq1, hqB, hlast, hch'⟩
        have hcpltB : cp < B := by
          have : (cp : ℤ) < (B : ℤ) := lt_of_lt_of_le hcq hqB
          exact_mod_cast this
        obtain ⟨ha, new, hnew, hge, hpw⟩ := ih (cp + 1) (ts :: rest') (mk ++ " ") (lb ++ " ") pl
          hch2 (by rw [data_length_append, hmk]; rfl) (by rw [data_length_append, hlb]; rfl)
          (by simp only [List.length_cons] at hf ⊢; omega)
        refine ⟨fun _ => ha (by simp), new, hnew,
          fun x hx => le_trans (show cp ≤ cp + 1 by omega) (hge x hx), hpw⟩
      · -- at the current timestamp: separator, then maybe its label
        have hcpq : (cp : ℤ) = q := le_antisymm hloq (not_lt.mp hcq)
        have hlt : jltB (.num cp 1) ts.1 = false := by
          rw [hts, jltB_num_one]
          simp only [decide_eq_false_iff_not]
          omega
        have heq : jsStrictEqB (.num cp 1) ts.1 = true := by
          rw [hts, jsStrictEqB_num_one]
          simp only [decide_eq_true_eq]
          exact hcpq
        cases rest' with
        | nil =>
          -- the last timestamp: label always placed, loop finishes
          rw [renderTimeAxisAux_step_place _ fuel cp ts [] mk lb pl hle hlt heq (Or.inl rfl)]
          have hqB' : q = (B : ℤ) := hlast rfl
          have hcpB' : cp = B := by exact_mod_cast hcpq.trans hqB'
          rw [renderTimeAxisAux_nil]
          constructor
          · intro _
            refine ⟨?_, ?_, ?_⟩
            · show ((mk ++ "│") ++ spacesStr ts.2.length).data.get? B = some '│'
              rw [← hcpB', ← hmk]
              exact data_get_marker mk (spacesStr ts.2.length)
            · show ((lb ++ "│") ++ ts.2).data.get? B = some '│'
              rw [← hcpB', ← hlb]
              exact data_get_marker lb ts.2
            · show B < cp + 1 + ts.2.length
              omega
          · refine ⟨[(cp + 1, ts.2)], rfl, ?_, ?_⟩
            · intro x hx
              rcases List.mem_singleton.mp hx with rfl
              omega
            · exact List.pairwise_singleton _ _
        | cons nt rest'' =>
          obtain ⟨q2, hnt, hq2lo, hq2B, hq2last, hch''⟩ := hch'
          by_cases hsp : jgeB (jsub nt.1 (.num ((cp + 1 : ℕ) : ℤ) 1))
              (.num (ts.2.length + 1) 1) = true
          · rw [renderTimeAxisAux_step_place _ fuel cp ts (nt :: rest'') mk lb pl hle hlt heq
              (Or.inr hsp)]
            have hspace : (ts.2.length + 1 : ℤ) ≤ q2 - ((cp + 1 : ℕ) : ℤ) := by
              rw [hnt, jsub_num_one] at hsp
              unfold jgeB at hsp
              rw [jleB_num_one] at hsp
              simp only [decide_eq_true_eq] at hsp
              exact_mod_cast hsp
            have hch2 : axisChain (B : ℤ) ((cp + 1 + ts.2.length : ℕ) : ℤ) (nt :: rest'') :=
              ⟨q2, hnt, by push_cast at hspace ⊢; omega, hq2B, hq2last, hch''⟩
            have hnext : cp + 1 + ts.2.length ≤ B := by
              have h1 : q2 ≤ (B : ℤ) := hq2B
              push_cast at hspace
              omega
            obtain ⟨ha, new, hnew, hge, hpw⟩ := ih (cp + 1 + ts.2.length) (nt :: rest'')
              (mk ++ "│" ++ spacesStr ts.2.length) (lb ++ "│" ++ ts.2)
              (pl ++ [(cp + 1, ts.2)]) hch2
              (by rw [data_length_append, data_length_append, hmk, spacesStr_data_length]; rfl)
              (by rw [data_length_append, data_length_append, hlb]; rfl)
              (by simp only [List.length_cons] at hf ⊢; omega)
            obtain ⟨h1, h2, h3⟩ := ha (by simp)
            refine ⟨fun _ => ⟨h1, h2, h3⟩, (cp + 1, ts.2) :: new, ?_, ?_, ?_⟩
            · rw [hnew, List.append_assoc]
              rfl
            · intro x hx
              rcases List.mem_cons.mp hx with rfl | hx
              · exact Nat.le_succ cp
              · exact le_trans (show cp ≤ cp + 1 + ts.2.length by omega) (hge x hx)
            · rw [List.pairwise_cons]
              exact ⟨fun x hx =>
                show cp + 1 + ts.2.length ≤ x.1 from hge x hx, hpw⟩
          · -- separator only; the label is skipped for lack of space
            rw [renderTimeAxisAux_step_skip _ fuel cp ts (nt :: rest'') mk lb pl hle hlt heq
              (fun hor => by
                rcases hor with h | h
                · simp at h
                · exact hsp h)]
            have hch2 : axisChain (B : ℤ) ((cp + 1 : ℕ) : ℤ) (nt :: rest'') :=
              ⟨q2, hnt, by push_cast at hq2lo ⊢; omega, hq2B, hq2last, hch''⟩
            obtain ⟨ha, new, hnew, hge, hpw⟩ := ih (cp + 1) (nt :: rest'')
              (mk ++ "│") (lb ++ "│") pl hch2
              (by rw [data_length_append, hmk]; rfl)
              (by rw [data_length_append, hlb]; rfl)
              (by simp only [List.length_cons] at hf ⊢; omega)
            obtain ⟨h1, h2, h3⟩ := ha (by simp)
            exact ⟨fun _ => ⟨h1, h2, h3⟩, new, hnew,
              fun x hx => le_trans (show cp ≤ cp + 1 by omega) (hge x hx), hpw⟩

/-! ### Grouping and ordering characterization -/

/-- One step of the first-seen dedup fold. -/
theorem uniquePackages_append_singleton (l : List SummaryTask) (t : SummaryTask) :
    uniquePackages (l ++ [t]) =
      if t.package ∈ uniquePackages l then uniquePackages l
      else uniquePackages l ++ [t.package] := by
  unfold uniquePackages
  rw [List.foldl_append]
  rfl

theorem mem_uniquePackages_aux (l : List SummaryTask) :
    ∀ (acc : List String) (x : String),
      x ∈ l.foldl (fun acc t => if t.package ∈ acc then acc else acc ++ [t.package]) acc ↔
        x ∈ acc ∨ x ∈ l.map (fun t => t.package) := by
  induction l with
  | nil => simp
  | cons t l ih =>
    intro acc x
    rw [List.foldl_cons, ih]
    by_cases h : t.package ∈ acc
    · rw [if_pos h]
      simp only [List.map_cons, List.mem_cons]
      constructor
      · rintro (hx | hx)
        · exact Or.inl hx
        · exact Or.inr (Or.inr hx)
      · rintro (hx | rfl | hx)
        · exact Or.inl hx
        · exact Or.inl h
        · exact Or.inr hx
    · rw [if_neg h]
      simp only [List.mem_append, List.mem_singleton, List.map_cons, List.mem_cons]
      tauto

theorem mem_uniquePackages (l : List SummaryTask) (x : String) :
    x ∈ uniquePackages l ↔ x ∈ l.map (fun t => t.package) := by
  rw [uniquePackages, mem_uniquePackages_aux]
  simp

theorem uniquePackages_nodup_aux (l : List SummaryTask) :
    ∀ acc : List String, acc.Nodup →
      (l.foldl (fun acc t => if t.package ∈ acc then acc else acc ++ [t.package]) acc).Nodup := by
  induction l with
  | nil => exact fun acc h => h
  | cons t l ih =>
    intro acc hacc
    rw [List.foldl_cons]
    by_cases h : t.package ∈ acc
    · rw [if_pos h]
      exact ih acc hacc
    · rw [if_neg h]
      refine ih _ ?_
      simp [List.nodup_append, hacc, h]

theorem uniquePackages_nodup (l : List SummaryTask) : (uniquePackages l).Nodup :=
  uniquePackages_nodup_aux l [] List.nodup_nil

/-- The package map as a function of the first-seen key list and the raw
task list. -/
def groupedBy (tasks : List SummaryTask) : List (String × List SummaryTask) :=
  (uniquePackages tasks).map (fun p => (p, tasks.filter (fun t => t.package = p)))

theorem addTaskToGroups_map (keys : List String) (f : String → List SummaryTask)
    (t : SummaryTask) (hnd : keys.Nodup) :
    addTaskToGroups (keys.map (fun p => (p, f p))) t =
      if t.package ∈ keys then
        keys.map (fun p => (p, if p = t.package then f p ++ [t] else f p))
      else keys.map (fun p => (p, f p)) ++ [(t.package, [t])] := by
  induction keys with
  | nil => simp [addTaskToGroups]
  | cons k ks ih =>
    rw [List.map_cons, addTaskToGroups]
    rcases List.nodup_cons.mp hnd with ⟨hk, hks⟩
    by_cases hkt : k = t.package
    · rw [if_pos hkt, if_pos (by rw [hkt]; exact List.mem_cons_self _ _)]
      rw [List.map_cons, if_pos hkt]
      congr 1
      refine (List.map_congr_left ?_).symm
      intro p hp
      have : p ≠ t.package := fun he => hk (by rw [hkt, ← he]; exact hp)
      rw [if_neg this]
    · rw [if_neg hkt, ih hks]
      by_cases hmem : t.package ∈ ks
      · rw [if_pos hmem, if_pos (List.mem_cons_of_mem _ hmem), List.map_cons, if_neg hkt]
      · rw [if_neg hmem, if_neg (by
          intro h
          rcases List.mem_cons.mp h with h | h
          · exact hkt h.symm
          · exact hmem h), List.cons_append]

/-- The grouping fold builds exactly the first-seen-keyed filter map. -/
theorem packageGroups_eq (tasks : List SummaryTask) :
    packageGroups tasks = groupedBy tasks := by
  suffices h : ∀ (l pre : List SummaryTask),
      List.foldl addTaskToGroups (groupedBy pre) l = groupedBy (pre ++ l) by
    have := h tasks []
    simpa [packageGroups, groupedBy] using this
  intro l
  induction l with
  | nil => simp
  | cons t l ih =>
    intro pre
    rw [List.foldl_cons]
    have hstep : addTaskToGroups (groupedBy pre) t = groupedBy (pre ++ [t]) := by
      rw [groupedBy, addTaskToGroups_map _ _ _ (uniquePackages_nodup pre)]
      by_cases hmem : t.package ∈ uniquePackages pre
      · rw [if_pos hmem, groupedBy, uniquePackages_append_singleton, if_pos hmem]
        refine List.map_congr_left ?_
        intro p _
        by_cases hp : p = t.package
        · rw [if_pos hp, List.filter_append]
          congr 1
          simp [hp.symm]
        · rw [if_neg hp, List.filter_append]
          have : (List.filter (fun x => decide (x.package = p)) [t]) = [] := by
            simp
            exact fun h => hp h.symm
          rw [this, List.append_nil]
      · rw [if_neg hmem, groupedBy, uniquePackages_append_singleton, if_neg hmem,
          List.map_append]
        congr 1
        · refine List.map_congr_left ?_
          intro p hp
          have hne : p ≠ t.package := fun he => hmem (he ▸ hp)
          rw [List.filter_append]
          have : (List.filter (fun x => decide (x.package = p)) [t]) = [] := by
            simp
            exact fun h => hne h.symm
          rw [this, List.append_nil]
        · simp only [List.map_cons, List.map_nil]
          have hfil : List.filter (fun x => decide (x.package = t.package)) pre = [] := by
            rw [List.filter_eq_nil_iff]
            intro x hx
            simp only [decide_eq_true_eq]
            intro he
            exact hmem ((mem_uniquePackages pre t.package).mpr
              (he ▸ List.mem_map_of_mem _ hx))
          rw [List.filter_append, hfil, List.nil_append]
          simp
    rw [hstep, ih (pre ++ [t])]
    congr 1
    simp

/-- Insertion sort commutes with mapping when the relation is pulled back. -/
theorem insertionSort_map {α β : Type} (R : β → β → Prop) [DecidableRel R] (F : α → β)
    [DecidableRel (fun a b => R (F a) (F b))] :
    ∀ l : List α, List.insertionSort R (l.map F) =
      (List.insertionSort (fun a b => R (F a) (F b)) l).map F := by
  intro l
  induction l with
  | nil => rfl
  | cons x l ih =>
    rw [List.map_cons, List.insertionSort, List.insertionSort, ih]
    exact (List.map_orderedInsert _ _ F _ x (fun a _ => Iff.rfl) (fun a _ => Iff.rfl)).symm

theorem orderedInsert_congr {α : Type} {r s : α → α → Prop} [DecidableRel r] [DecidableRel s]
    (h : ∀ a b, r a b ↔ s a b) (x : α) :
    ∀ l, List.orderedInsert r x l = List.orderedInsert s x l := by
  intro l
  induction l with
  | nil => rfl
  | cons y l ih =>
    rw [List.orderedInsert, List.orderedInsert]
    exact if_congr (h x y) rfl (by rw [ih])

theorem insertionSort_congr {α : Type} {r s : α → α → Prop} [DecidableRel r] [DecidableRel s]
    (h : ∀ a b, r a b ↔ s a b) :
    ∀ l, List.insertionSort r l = List.insertionSort s l := by
  intro l
  induction l with
  | nil => rfl
  | cons y l ih =>
    rw [List.insertionSort, List.insertionSort, ih]
    exact orderedInsert_congr h y _

/-- The group minimum is invariant under permutations, in particular under
the intra-group sort. -/
theorem minStart_perm {g h : List SummaryTask} (p : g.Perm h) : minStart g = minStart h := by
  haveI : LeftCommutative
      (fun (t : SummaryTask) (m : WithTop ℤ) => min (t.execution.startTime : WithTop ℤ) m) :=
    ⟨fun a b c => min_left_comm _ _ _⟩
  exact p.foldr_eq _

theorem minStart_sortByStartTime (g : List SummaryTask) :
    minStart (sortByStartTime g) = minStart g :=
  minStart_perm (List.perm_insertionSort _ g)

/-! ### Stability of insertion sort, phrased through filters -/

theorem filter_orderedInsert_key_eq {α κ : Type} [LinearOrder κ]
    (key : α → κ) (v : κ) (x : α) (hx : key x = v) :
    ∀ s : List α, List.Sorted (fun a b => key a ≤ key b) s →
      (List.orderedInsert (fun a b => key a ≤ key b) x s).filter
          (fun a => decide (key a = v)) =
        x :: s.filter (fun a => decide (key a = v)) := by
  intro s
  induction s with
  | nil =>
    intro _
    simp [List.orderedInsert, hx]
  | cons y ys ih =>
    intro hs
    rw [List.orderedInsert]
    by_cases hr : key x ≤ key y
    · rw [if_pos hr, List.filter_cons, if_pos (by simp [hx])]
    · rw [if_neg hr]
      have hyv : key y ≠ v := by
        intro he
        apply hr
        rw [hx, ← he]
      rw [List.filter_cons, if_neg (by simp [hyv]), List.filter_cons, if_neg (by simp [hyv]),
        ih (List.Sorted.of_cons hs)]

theorem filter_orderedInsert_key_ne {α κ : Type} [LinearOrder κ]
    (key : α → κ) (v : κ) (x : α) (hx : key x ≠ v) :
    ∀ s : List α,
      (List.orderedInsert (fun a b => key a ≤ key b) x s).filter
          (fun a => decide (key a = v)) =
        s.filter (fun a => decide (key a = v)) := by
  intro s
  induction s with
  | nil => simp [List.orderedInsert, hx]
  | cons y ys ih =>
    rw [List.orderedInsert]
    by_cases hr : key x ≤ key y
    · rw [if_pos hr, List.filter_cons, if_neg (by simp [hx])]
    · rw [if_neg hr, List.filter_cons, List.filter_cons, ih]

/-- Insertion sort by a key is stable: the subsequence at any fixed key
value is returned unchanged. -/
theorem filter_insertionSort_key {α κ : Type} [LinearOrder κ]
    (key : α → κ) (v : κ) :
    ∀ l : List α, (List.insertionSort (fun a b => key a ≤ key b) l).filter
        (fun a => decide (key a = v)) =
      l.filter (fun a => decide (key a = v)) := by
  intro l
  haveI : IsTotal α (fun a b => key a ≤ key b) := ⟨fun a b => le_total _ _⟩
  haveI : IsTrans α (fun a b => key a ≤ key b) := ⟨fun _ _ _ hab hbc => le_trans hab hbc⟩
  induction l with
  | nil => rfl
  | cons x l ih =>
    rw [List.insertionSort]
    by_cases hx : key x = v
    · rw [filter_orderedInsert_key_eq key v x hx _
        (List.sorted_insertionSort _ l), ih, List.filter_cons, if_pos (by simp [hx])]
    · rw [filter_orderedInsert_key_ne key v x hx, ih, List.filter_cons,
        if_neg (by simp [hx])]

/-- The group-ordering key: minimum start time among the tasks of a package. -/
def groupMin (tasks : List SummaryTask) (p : String) : WithTop ℤ :=
  minStart (tasks.filter (fun t => t.package = p))

/-- The display order of the packages: first-seen order stably sorted by
ascending group minimum start time. -/
def sortedKeys (tasks : List SummaryTask) : List String :=
  List.insertionSort (fun p q => groupMin tasks p ≤ groupMin tasks q) (uniquePackages tasks)

theorem sortedKeys_perm (tasks : List SummaryTask) :
    (sortedKeys tasks).Perm (uniquePackages tasks) :=
  List.perm_insertionSort _ _

theorem sortedKeys_nodup (tasks : List SummaryTask) : (sortedKeys tasks).Nodup :=
  (sortedKeys_perm tasks).nodup_iff.mpr (uniquePackages_nodup tasks)

theorem mem_sortedKeys (tasks : List SummaryTask) (p : String) :
    p ∈ sortedKeys tasks ↔ p ∈ tasks.map (fun t => t.package) := by
  rw [(sortedKeys_perm tasks).mem_iff, mem_uniquePackages]

/-- Full characterization of `groupAndSortTasks`: the blocks of the sorted
key list, each block the stable start-time sort of its package's tasks. -/
theorem groupAndSortTasks_char (tasks : List SummaryTask) :
    groupAndSortTasks tasks =
      (sortedKeys tasks).flatMap
        (fun p => sortByStartTime (tasks.filter (fun t => t.package = p))) := by
  haveI hdr : DecidableRel (fun (a b : String) =>
      minStart ((fun p => (p, sortByStartTime (tasks.filter (fun t => t.package = p)))) a).2 ≤
      minStart ((fun p => (p, sortByStartTime (tasks.filter (fun t => t.package = p)))) b).2) :=
    fun a b => inferInstanceAs (Decidable (_ ≤ _))
  have hunfold : groupAndSortTasks tasks =
      (List.insertionSort (fun A B => minStart A.2 ≤ minStart B.2)
        ((packageGroups tasks).map (fun kg => (kg.1, sortByStartTime kg.2)))).flatMap
        (fun kg => kg.2) := rfl
  rw [hunfold, packageGroups_eq, groupedBy, List.map_map]
  rw [show ((fun kg => (kg.1, sortByStartTime kg.2)) ∘
      (fun p => (p, tasks.filter (fun t => t.package = p)))) =
      (fun p => (p, sortByStartTime (tasks.filter (fun t => t.package = p)))) from rfl]
  rw [insertionSort_map (fun A B => minStart A.2 ≤ minStart B.2)
    (fun p => (p, sortByStartTime (tasks.filter (fun t => t.package = p))))
    (uniquePackages tasks)]
  rw [List.flatMap_map]
  have hsk : (List.insertionSort (fun a b =>
      minStart ((fun p => (p, sortByStartTime (tasks.filter (fun t => t.package = p)))) a).2 ≤
      minStart ((fun p => (p, sortByStartTime (tasks.filter (fun t => t.package = p)))) b).2)
      (uniquePackages tasks)) = sortedKeys tasks := by
    rw [sortedKeys]
    refine insertionSort_congr ?_ _
    intro a b
    show minStart (sortByStartTime (tasks.filter (fun t => t.package = a))) ≤
        minStart (sortByStartTime (tasks.filter (fun t => t.package = b))) ↔ _
    rw [minStart_sortByStartTime, minStart_sortByStartTime]
    exact Iff.rfl
  rw [hsk]

theorem sortedKeys_pairwise (tasks : List SummaryTask) :
    (sortedKeys tasks).Pairwise (fun p q => groupMin tasks p ≤ groupMin tasks q) := by
  haveI : IsTotal String (fun p q => groupMin tasks p ≤ groupMin tasks q) :=
    ⟨fun a b => le_total _ _⟩
  haveI : IsTrans String (fun p q => groupMin tasks p ≤ groupMin tasks q) :=
    ⟨fun _ _ _ hab hbc => le_trans hab hbc⟩
  exact List.sorted_insertionSort _ _

theorem sortedKeys_filter (tasks : List SummaryTask) (v : WithTop ℤ) :
    (sortedKeys tasks).filter (fun p => decide (groupMin tasks p = v)) =
      (uniquePackages tasks).filter (fun p => decide (groupMin tasks p = v)) := by
  rw [sortedKeys]
  exact filter_insertionSort_key (fun p => groupMin tasks p) v _

theorem sortByStartTime_pairwise (g : List SummaryTask) :
    (sortByStartTime g).Pairwise
      (fun a b => a.execution.startTime ≤ b.execution.startTime) := by
  haveI : IsTotal SummaryTask (fun a b => a.execution.startTime ≤ b.execution.startTime) :=
    ⟨fun a b => le_total _ _⟩
  haveI : IsTrans SummaryTask (fun a b => a.execution.startTime ≤ b.execution.startTime) :=
    ⟨fun _ _ _ hab hbc => le_trans hab hbc⟩
  exact List.sorted_insertionSort _ _

theorem sortByStartTime_filter (g : List SummaryTask) (s : ℤ) :
    (sortByStartTime g).filter (fun t => decide (t.execution.startTime = s)) =
      g.filter (fun t => decide (t.execution.startTime = s)) := by
  rw [sortByStartTime]
  exact filter_insertionSort_key (fun t => t.execution.startTime) s g

theorem flatMap_perm_of_perm {α β : Type} (keys : List α) (f g : α → List β)
    (h : ∀ a ∈ keys, (f a).Perm (g a)) : (keys.flatMap f).Perm (keys.flatMap g) := by
  induction keys with
  | nil => rfl
  | cons k ks ih =>
    rw [List.flatMap_cons, List.flatMap_cons]
    exact (h k (by simp)).append (ih (fun a ha => h a (by simp [ha])))

/-- A nodup list of keys covering every element partitions a list: the
concatenation of the per-key filters is a permutation of the list. -/
theorem flatMap_filter_perm {α κ : Type} [DecidableEq κ] (key : α → κ) :
    ∀ (keys : List κ) (l : List α), keys.Nodup → (∀ a ∈ l, key a ∈ keys) →
      (keys.flatMap (fun p => l.filter (fun a => decide (key a = p)))).Perm l := by
  intro keys
  induction keys with
  | nil =>
    intro l _ hcov
    have hl : l = [] := List.eq_nil_iff_forall_not_mem.mpr (fun a ha => by simpa using hcov a ha)
    rw [hl]
    rfl
  | cons k ks ih =>
    intro l hnd hcov
    have hk : k ∉ ks := (List.nodup_cons.mp hnd).1
    rw [List.flatMap_cons]
    have hrest : ∀ p ∈ ks, l.filter (fun a => decide (key a = p)) =
        (l.filter (fun a => !decide (key a = k))).filter (fun a => decide (key a = p)) := by
      intro p hp
      have hne : p ≠ k := fun he => hk (he ▸ hp)
      rw [List.filter_filter]
      refine List.filter_congr ?_
      intro a _
      by_cases hap : key a = p
      · have hak : key a ≠ k := by
          rw [hap]
          exact hne
        simp [hap, hak, hne]
      · simp [hap]
    rw [List.flatMap_congr hrest]
    have hcov2 : ∀ a ∈ l.filter (fun a => !decide (key a = k)), key a ∈ ks := by
      intro a ha
      rcases List.mem_filter.mp ha with ⟨hal, hane⟩
      have : key a ≠ k := by simpa using hane
      rcases List.mem_cons.mp (hcov a hal) with h | h
      · exact absurd (by simpa using h) this
      · simpa using h
    refine (List.Perm.append_left _ (ih _ (List.nodup_cons.mp hnd).2 hcov2)).trans ?_
    exact List.filter_append_perm _ l

/-- The grouped-and-sorted display order is a permutation of the input. -/
theorem groupAndSortTasks_perm (tasks : List SummaryTask) :
    (groupAndSortTasks tasks).Perm tasks := by
  rw [groupAndSortTasks_char]
  refine (flatMap_perm_of_perm (sortedKeys tasks)
    (fun p => sortByStartTime (tasks.filter (fun t => t.package = p)))
    (fun p => tasks.filter (fun t => t.package = p))
    (fun p _ => List.perm_insertionSort _ _)).trans ?_
  exact flatMap_filter_perm (fun t => t.package) (sortedKeys tasks) tasks
    (sortedKeys_nodup tasks)
    (fun t ht => (mem_sortedKeys tasks _).mpr (List.mem_map_of_mem _ ht))

/-! ### The axis renderer on a real chart -/

theorem jsRepeatCount_num_one (a : ℤ) (h : 0 ≤ a) :
    jsRepeatCount (.num a 1) = .ok a.toNat := by
  rw [jsRepeatCount]
  simp only [Nat.cast_one, Int.fdiv_one, if_pos h]
  rw [if_neg (by omega)]

theorem jsLoopBound_num_one (a : ℤ) (h : 0 ≤ a) :
    jsLoopBound (.num a 1) = a.toNat + 1 := by
  simp only [jsLoopBound, Nat.cast_one, Int.fdiv_one]
  rw [if_neg (by omega)]

/-! ### Duration formatting -/

theorem hundredthsToString_int (n : ℤ) : hundredthsToString n 1 = toString n := by
  rw [hundredthsToString]
  simp only [Nat.cast_one, Int.fdiv_one, Int.emod_one]
  rw [if_neg (by simp), if_pos (by omega), Int.mul_ediv_cancel_left n (by norm_num)]

theorem hundredthsToString_100 (n : ℤ) :
    hundredthsToString n 100 =
      if n % 100 = 0 then toString (n / 100)
      else if n % 100 % 10 = 0 then
        toString (n / 100) ++ "." ++ toString (n % 100 / 10)
      else
        toString (n / 100) ++ "." ++ (if n % 100 < 10 then "0" else "") ++
          toString (n % 100) := by
  simp only [hundredthsToString]
  rw [show ((100 : ℕ) : ℤ) = (100 : ℤ) from rfl,
    Int.mul_fdiv_cancel_left n (by norm_num : (100 : ℤ) ≠ 0)]
  rw [if_neg (by simp [Int.mul_emod_right])]
  by_cases h1 : n % 100 = 0
  · rw [if_pos h1, if_pos h1]
  · rw [if_neg h1, if_neg h1]
    by_cases h2 : n % 10 = 0
    · rw [if_pos h2, if_pos (by omega)]
      have hd : n / 10 % 10 = n % 100 / 10 := by omega
      rw [hd]
    · have h3 : n % 100 % 10 = n % 10 := Int.emod_emod_of_dvd n (by norm_num)
      rw [if_neg h2, h3, if_neg h2]

/-- The duration string the specification prescribes (after amendment):
below one second, the integer millisecond count with `"ms"`; otherwise the
total elapsed hundredths of a second (truncated, floor semantics) printed
as seconds with at most two decimals and trailing zeros dropped, with
`"s"`. -/
def specFormatDuration (ms : ℤ) : String :=
  if ms < 1000 then toString ms ++ "ms"
  else
    let h : ℤ := ms.fdiv 10
    (if h % 100 = 0 then toString (h / 100)
     else if h % 100 % 10 = 0 then
       toString (h / 100) ++ "." ++ toString (h % 100 / 10)
     else
       toString (h / 100) ++ "." ++ (if h % 100 < 10 then "0" else "") ++
         toString (h % 100)) ++ "s"

/-- The duration label is never the empty string. -/
theorem formatDuration_length_ne (x : JSNum) : (formatDuration x).length ≠ 0 := by
  rw [formatDuration]
  split
  · rw [String.length_append, show ("ms" : String).length = 2 from rfl]
    omega
  · rw [String.length_append, show ("s" : String).length = 1 from rfl]
    omega

/-- C2 (as amended): on every nonnegative integer millisecond count the
formatter prints the integer count with `"ms"` below one second, and
otherwise the floored hundredths-of-a-second value as seconds with at most
two decimals, trailing zeros dropped, with `"s"` — so whole seconds print
with no decimals (`1000 ↦ "1s"`), not padded to two places. -/
theorem spec_c2 (ms : ℤ) (h : 0 ≤ ms) :
    formatDuration (.num ms 1) = specFormatDuration ms := by
  rw [formatDuration, specFormatDuration, jltB_num_one]
  by_cases hlt : ms < 1000
  · rw [if_pos (by simpa using hlt), if_pos hlt, jsToString, if_neg (by omega),
      hundredthsToString_int]
  · rw [if_neg (by simpa using hlt), if_neg hlt]
    rw [jdiv_num_one_pos ms 10 (by norm_num), show ((10 : ℤ).toNat) = 10 from rfl,
      jfloor_num, show ((10 : ℕ) : ℤ) = 10 from rfl,
      jdiv_num_one_pos _ 100 (by norm_num), show ((100 : ℤ).toNat) = 100 from rfl]
    have hnn : 0 ≤ ms.fdiv 10 := Int.fdiv_nonneg h (by norm_num)
    rw [jsToString, if_neg (by omega), hundredthsToString_100]

/-- C2, counterexample to the original wording: a whole-second value is not
padded to two decimal places — `formatDuration` prints `"1s"` where the
claim requires `"1.00s"` (and `"1s"` for 1005, not `"1.00s"`); the floored
two-decimal case `1999 ↦ "1.99s"` does hold. -/
theorem spec_c2_counterexample :
    formatDuration (.num 1000 1) = "1s" ∧ formatDuration (.num 1000 1) ≠ "1.00s" ∧
    formatDuration (.num 1005 1) = "1s" ∧
    formatDuration (.num 1999 1) = "1.99s" ∧
    formatDuration (.num 999 1) = "999ms" ∧ formatDuration (.num 0 1) = "0ms" ∧
    formatDuration (.num 1500 1) = "1.5s" := by
  refine ⟨?_, ?_, ?_, ?_, ?_, ?_, ?_⟩ <;> decide

theorem spec_c2_witness : formatDuration (.num 1999 1) = specFormatDuration 1999 :=
  spec_c2 1999 (by norm_num)

/-! ### Degenerate inputs -/

/-- A single instantaneous task: the global duration is zero. -/
def c1Task : SummaryTask := ⟨"build", "app", ⟨1000, 1000⟩⟩

/-- C1: the code bug behind the zero-duration guard claim.  Nothing guards
the division: with all tasks at identical start and end times the scale
factor is `100 / 0 = Infinity`, the bar bounds of every task are `NaN`
rather than a minimum-width bar, and the row loop never runs, so the row is
just the padded label with no bar cells at all (and no duration label). -/
theorem spec_c1 :
    totalDuration [c1Task] = JSNum.num 0 1 ∧
    msToChars [c1Task] = JSNum.posInf ∧
    timeToChars [c1Task] (totalDuration [c1Task]) = JSNum.nan ∧
    getTaskBarBounds [c1Task] c1Task = (JSNum.nan, JSNum.nan) ∧
    renderTaskRow [c1Task] c1Task (getMarkerPositions [c1Task]) = ("build  ", []) := by
  refine ⟨rfl, rfl, rfl, rfl, ?_⟩
  decide

/-- C9: on the empty task list the spread minimum is `Infinity`, the label
width is `-Infinity`, and `" ".repeat(labelWidth)` throws the `RangeError`
before any axis output is assembled, so the render yields no rows and the
error. -/
theorem spec_c9 :
    render [] = ([], some "RangeError: Invalid count value") ∧
    rendererStartTime [] = JSNum.posInf ∧
    labelWidth [] = JSNum.negInf ∧
    renderTimeAxis [] = .error "RangeError: Invalid count value" := by
  refine ⟨?_, rfl, rfl, rfl⟩
  rfl

/-! ### Duration labels in rows -/

set_option maxRecDepth 8000
set_option maxHeartbeats 1000000

/-- C3 (as amended): whatever integral timeline width `W` the chart
computes, the duration label is present in a task's row whenever the task's
bar ends at an integral column within the timeline (`barEnd ≤ W`); a bar
whose clamped width protrudes past the right edge (`barEnd > W`) never
triggers the pending-label state, and its label is dropped.  The statement
is parametric in the computed width and bar end, so it is insensitive to
how binary64 rounding settles those values. -/
theorem spec_c3 (tasks : List SummaryTask) (t : SummaryTask) (bs : JSNum) (e : ℤ) (W : ℕ)
    (hw : timeToChars tasks (totalDuration tasks) = .num (W : ℤ) 1)
    (hb : getTaskBarBounds tasks t = (bs, .num e 1))
    (he0 : 0 ≤ e) (he : e ≤ (W : ℤ)) :
    (formatDuration (jsub (.num t.execution.endTime 1)
        (.num t.execution.startTime 1))).data <:+:
      (renderTaskRow tasks t (getMarkerPositions tasks)).1.data := by
  simp only [renderTaskRow]
  rw [hw, hb]
  have hfuel : W + 2 - 0 ≤ jsLoopBound (JSNum.num (W : ℤ) 1) + 2 := by
    rw [jsLoopBound_num_one _ (by positivity)]
    omega
  obtain ⟨a, b, hab⟩ := renderRowAux_label_emitted (getMarkerPositions tasks)
    (formatDuration (jsub (.num t.execution.endTime 1) (.num t.execution.startTime 1)))
    bs e W (formatDuration_length_ne _) he (jsLoopBound (JSNum.num (W : ℤ) 1) + 2) 0
    (by exact_mod_cast he0) hfuel
  refine ⟨(jsPadEnd t.taskId (labelWidth tasks)).data ++ a, b, ?_⟩
  rw [String.data_append, ← hab]
  simp [List.append_assoc]

def c3TaskA : SummaryTask := ⟨"app#build", "app", ⟨0, 1000⟩⟩
def c3TaskB : SummaryTask := ⟨"web#build", "web", ⟨990, 1000⟩⟩

/-- C3, counterexample to the original wording: a short task near the right
edge gets `barEnd = 102 > 100`, the loop counter never equals `barEnd`, so
no pending label is ever set and the `"10ms"` label is absent from the
row — it is not "still appended at the end of the row". -/
theorem spec_c3_counterexample :
    getTaskBarBounds [c3TaskA, c3TaskB] c3TaskB = (.num 99 1, .num 102 1) ∧
    formatDuration (jsub (.num c3TaskB.execution.endTime 1)
        (.num c3TaskB.execution.startTime 1)) = "10ms" ∧
    timeToChars [c3TaskA, c3TaskB] (totalDuration [c3TaskA, c3TaskB]) = .num 100 1 ∧
    ¬ ("10ms".data <:+:
      (renderTaskRow [c3TaskA, c3TaskB] c3TaskB
        (getMarkerPositions [c3TaskA, c3TaskB])).1.data) := by
  refine ⟨rfl, rfl, rfl, ?_⟩
  decide

def c3WTask : SummaryTask := ⟨"build", "app", ⟨0, 1000⟩⟩

theorem spec_c3_witness :
    (formatDuration (jsub (.num c3WTask.execution.endTime 1)
        (.num c3WTask.execution.startTime 1))).data <:+:
      (renderTaskRow [c3WTask] c3WTask (getMarkerPositions [c3WTask])).1.data :=
  spec_c3 [c3WTask] c3WTask (.num 0 1) 100 100 rfl rfl (by norm_num) (by norm_num)

/-! ### Marker and label collisions -/

/-- Whenever the computed timeline width is a finite integer, every marker
position is an integer column: the positions are floors of finite values,
and the appended final entry is the width itself.  (No exact-arithmetic
value of any position is used, so this is insensitive to binary64
rounding.) -/
theorem getMarkerPositions_int (tasks : List SummaryTask) (W : ℤ)
    (hw : timeToChars tasks (totalDuration tasks) = .num W 1) :
    ∀ p ∈ getMarkerPositions tasks, ∃ c : ℤ, p = JSNum.num c 1 := by
  intro p hp
  simp only [getMarkerPositions] at hp
  rw [hw] at hp
  have hpos : ∀ (L : List ℤ) (q : JSNum), q ∈ L.map
      (fun i => jfloor (jmul (jdiv (JSNum.num i 1) (JSNum.num (CONFIG.NUM_TIME_MARKERS : ℤ) 1))
        (JSNum.num W 1))) →
      ∃ c : ℤ, q = JSNum.num c 1 := by
    intro L q hq
    obtain ⟨i, _, rfl⟩ := List.mem_map.mp hq
    rw [jdiv_num_one_pos _ _ (by decide : (0 : ℤ) < (CONFIG.NUM_TIME_MARKERS : ℤ)),
      jmul_num, jfloor_num]
    exact ⟨_, rfl⟩
  split at hp
  · exact hpos _ p hp
  · rcases List.mem_append.mp hp with h | h
    · exact hpos _ p h
    · exact ⟨W, by simpa using h⟩

/-- The computed width is always among the marker positions: the source
appends it unless `Array.includes` already finds an equal entry, and every
entry is an integer column, so an equal entry is the width itself. -/
theorem width_mem_markerPositions (tasks : List SummaryTask) (W : ℤ)
    (hw : timeToChars tasks (totalDuration tasks) = .num W 1) :
    JSNum.num W 1 ∈ getMarkerPositions tasks := by
  simp only [getMarkerPositions]
  rw [hw]
  split
  case isTrue h =>
    obtain ⟨q, hq, hsv⟩ := List.any_eq_true.mp h
    obtain ⟨i, hi, rfl⟩ := List.mem_map.mp hq
    rw [jdiv_num_one_pos _ _ (by decide : (0 : ℤ) < (CONFIG.NUM_TIME_MARKERS : ℤ)),
      jmul_num, jfloor_num] at hsv
    simp only [jsSameValueZeroB, decide_eq_true_eq, Nat.cast_one, mul_one] at hsv
    refine List.mem_map.mpr ⟨i, hi, ?_⟩
    rw [jdiv_num_one_pos _ _ (by decide : (0 : ℤ) < (CONFIG.NUM_TIME_MARKERS : ℤ)),
      jmul_num, jfloor_num]
    simp only [mul_one]
    rw [hsv]
  case isFalse h =>
    simp

theorem renderTimeAxisAux_stuck (bound : JSNum) (fuel cp : ℕ)
    (ts : JSNum × String) (rest : List (JSNum × String)) (mk lb : String)
    (pl : List (ℕ × String))
    (hle : jleB (.num cp 1) bound = true) (hlt : jltB (.num cp 1) ts.1 = false)
    (heq : jsStrictEqB (.num cp 1) ts.1 = false) :
    renderTimeAxisAux bound (fuel + 1) cp (ts :: rest) mk lb pl = (mk, lb, pl, cp) := by
  simp only [renderTimeAxisAux]
  rw [if_pos (show jleB (.num cp 1) bound = true from hle),
    if_neg (show ¬ jltB (.num cp 1) ts.1 = true by simp [hlt]),
    if_neg (show ¬ jsStrictEqB (.num cp 1) ts.1 = true by simp [heq])]

theorem renderTimeAxisAux_exit (bound : JSNum) (fuel cp : ℕ)
    (ts : JSNum × String) (rest : List (JSNum × String)) (mk lb : String)
    (pl : List (ℕ × String))
    (hle : jleB (.num cp 1) bound = false) :
    renderTimeAxisAux bound (fuel + 1) cp (ts :: rest) mk lb pl = (mk, lb, pl, cp) := by
  simp only [renderTimeAxisAux]
  rw [if_neg (show ¬ jleB (.num cp 1) bound = true by simp [hle])]

/-- Chain-free bookkeeping of the axis loop: whatever the timestamp list
is, every label the loop commits starts at or after the column the loop is
currently at, and the committed labels occupy pairwise non-overlapping,
left-to-right ordered column ranges. -/
theorem renderTimeAxisAux_placements (bound : JSNum) :
    ∀ (fuel cp : ℕ) (rest : List (JSNum × String)) (mk lb : String)
      (pl : List (ℕ × String)),
    ∃ new, (renderTimeAxisAux bound fuel cp rest mk lb pl).2.2.1 = pl ++ new ∧
      (∀ x ∈ new, cp ≤ x.1) ∧
      new.Pairwise (fun a b => a.1 + a.2.length ≤ b.1) := by
  intro fuel
  induction fuel with
  | zero =>
    intro cp rest mk lb pl
    refine ⟨[], ?_, by simp, by simp⟩
    simp [renderTimeAxisAux]
  | succ fuel ih =>
    intro cp rest mk lb pl
    cases rest with
    | nil =>
      refine ⟨[], ?_, by simp, by simp⟩
      rw [renderTimeAxisAux_nil]
      simp
    | cons ts rest' =>
      by_cases hle : jleB (.num cp 1) bound = true
      · by_cases hlt : jltB (.num cp 1) ts.1 = true
        · rw [renderTimeAxisAux_step_space bound fuel cp ts rest' mk lb pl hle hlt]
          obtain ⟨new, hnew, hge, hpw⟩ := ih (cp + 1) (ts :: rest') (mk ++ " ") (lb ++ " ") pl
          exact ⟨new, hnew,
            fun x hx => le_trans (show cp ≤ cp + 1 by omega) (hge x hx), hpw⟩
        · by_cases heq : jsStrictEqB (.num cp 1) ts.1 = true
          · by_cases hsp : (rest'.isEmpty = true ∨
                jgeB (match rest' with
                      | [] => JSNum.posInf
                      | nextTs :: _ => jsub nextTs.1 (.num ((cp + 1 : ℕ) : ℤ) 1))
                  (.num (ts.2.length + 1) 1) = true)
            · rw [renderTimeAxisAux_step_place bound fuel cp ts rest' mk lb pl hle
                (Bool.eq_false_iff.mpr hlt) heq hsp]
              obtain ⟨new, hnew, hge, hpw⟩ := ih (cp + 1 + ts.2.length) rest'
                (mk ++ "│" ++ spacesStr ts.2.length) (lb ++ "│" ++ ts.2)
                (pl ++ [(cp + 1, ts.2)])
              refine ⟨(cp + 1, ts.2) :: new, ?_, ?_, ?_⟩
              · rw [hnew, List.append_assoc]
                rfl
              · intro x hx
                rcases List.mem_cons.mp hx with rfl | hx
                · exact Nat.le_succ cp
                · exact le_trans (show cp ≤ cp + 1 + ts.2.length by omega) (hge x hx)
              · rw [List.pairwise_cons]
                exact ⟨fun x hx => show cp + 1 + ts.2.length ≤ x.1 from hge x hx, hpw⟩
            · rw [renderTimeAxisAux_step_skip bound fuel cp ts rest' mk lb pl hle
                (Bool.eq_false_iff.mpr hlt) heq hsp]
              obtain ⟨new, hnew, hge, hpw⟩ := ih (cp + 1) rest' (mk ++ "│") (lb ++ "│") pl
              exact ⟨new, hnew,
                fun x hx => le_trans (show cp ≤ cp + 1 by omega) (hge x hx), hpw⟩
          · rw [renderTimeAxisAux_stuck bound fuel cp ts rest' mk lb pl hle
              (Bool.eq_false_iff.mpr hlt) (Bool.eq_false_iff.mpr heq)]
            exact ⟨[], by simp, by simp, by simp⟩
      · rw [renderTimeAxisAux_exit bound fuel cp ts rest' mk lb pl
          (Bool.eq_false_iff.mpr hle)]
        exact ⟨[], by simp, by simp, by simp⟩

/-- The main-loop result of `renderTimeAxis` once `" ".repeat(labelWidth)`
has succeeded with count `L`. -/
def renderTimeAxisCore (tasks : List SummaryTask) (L : ℕ) :
    String × String × List (ℕ × String) × ℕ :=
  renderTimeAxisAux (jadd (labelWidth tasks) (timeToChars tasks (totalDuration tasks)))
    (jsLoopBound (jadd (labelWidth tasks) (timeToChars tasks (totalDuration tasks))) +
      (getTimestamps tasks).length + 2)
    L (getTimestamps tasks) (spacesStr L) (spacesStr L) []

theorem renderTimeAxis_ok_eq (tasks : List SummaryTask) (L : ℕ)
    (hrc : jsRepeatCount (labelWidth tasks) = .ok L) :
    renderTimeAxis tasks = .ok
      ⟨(renderTimeAxisTrailing
          (jadd (labelWidth tasks) (timeToChars tasks (totalDuration tasks)))
          (jsLoopBound (jadd (labelWidth tasks) (timeToChars tasks (totalDuration tasks))) + 2)
          (renderTimeAxisCore tasks L).2.2.2 (renderTimeAxisCore tasks L).1
          (renderTimeAxisCore tasks L).2.1).1,
        (renderTimeAxisTrailing
          (jadd (labelWidth tasks) (timeToChars tasks (totalDuration tasks)))
          (jsLoopBound (jadd (labelWidth tasks) (timeToChars tasks (totalDuration tasks))) + 2)
          (renderTimeAxisCore tasks L).2.2.2 (renderTimeAxisCore tasks L).1
          (renderTimeAxisCore tasks L).2.1).2,
        (renderTimeAxisCore tasks L).2.2.1⟩ := by
  simp only [renderTimeAxis]
  rw [hrc]
  rfl

/-- Whenever the axis renderer succeeds at all, its committed timestamp
labels occupy pairwise non-overlapping column ranges — with no hypothesis
on the scale arithmetic whatsoever. -/
theorem renderTimeAxis_placements (tasks : List SummaryTask) (axis : AxisResult)
    (h : renderTimeAxis tasks = .ok axis) :
    axis.placements.Pairwise (fun a b => a.1 + a.2.length ≤ b.1) := by
  rcases hrc : jsRepeatCount (labelWidth tasks) with e | L
  · rw [show renderTimeAxis tasks = .error e from by
      simp only [renderTimeAxis]
      rw [hrc]] at h
    exact absurd h (by simp)
  · rw [renderTimeAxis_ok_eq tasks L hrc] at h
    have hax := Except.ok.inj h
    obtain ⟨new, hnew, _, hpw⟩ := renderTimeAxisAux_placements
      (jadd (labelWidth tasks) (timeToChars tasks (totalDuration tasks)))
      (jsLoopBound (jadd (labelWidth tasks) (timeToChars tasks (totalDuration tasks))) +
        (getTimestamps tasks).length + 2)
      L (getTimestamps tasks) (spacesStr L) (spacesStr L) []
    rw [← hax]
    show (renderTimeAxisCore tasks L).2.2.1.Pairwise (fun a b => a.1 + a.2.length ≤ b.1)
    rw [show (renderTimeAxisCore tasks L).2.2.1 = [] ++ new from hnew]
    simpa using hpw

/-- C4: whatever integral timeline width the chart computes, a duration
label committed inline in a row occupies only columns at which no marker
position falls, and the timestamp labels committed on the axis label line
occupy pairwise non-overlapping column ranges (the axis half holds with no
hypotheses at all).  Both halves are statements about the placement scans,
parametric in the computed width, so they are insensitive to binary64
rounding of the scale arithmetic. -/
theorem spec_c4 (tasks : List SummaryTask) (W : ℤ)
    (hw : timeToChars tasks (totalDuration tasks) = .num W 1) :
    (∀ (t : SummaryTask) (pr : ℕ × String),
      pr ∈ (renderTaskRow tasks t (getMarkerPositions tasks)).2 →
      ∀ j, j < pr.2.length →
        (getMarkerPositions tasks).any
          (fun p => jsSameValueZeroB p (.num ((pr.1 + j : ℕ) : ℤ) 1)) = false) ∧
    (∀ axis, renderTimeAxis tasks = .ok axis →
      axis.placements.Pairwise (fun a b => a.1 + a.2.length ≤ b.1)) := by
  constructor
  · intro t pr hpr j hj
    exact renderRowAux_placements_clear (getMarkerPositions tasks) _ _ _ _
      (getMarkerPositions_int tasks W hw) _ _ _ pr hpr j hj
  · intro axis haxis
    exact renderTimeAxis_placements tasks axis haxis

def c4Task : SummaryTask := ⟨"app#build", "app", ⟨0, 1000⟩⟩

theorem spec_c4_witness :
    timeToChars [c4Task] (totalDuration [c4Task]) = .num 100 1 ∧
    ((∀ (t : SummaryTask) (pr : ℕ × String),
      pr ∈ (renderTaskRow [c4Task] t (getMarkerPositions [c4Task])).2 →
      ∀ j, j < pr.2.length →
        (getMarkerPositions [c4Task]).any
          (fun p => jsSameValueZeroB p (.num ((pr.1 + j : ℕ) : ℤ) 1)) = false) ∧
    (∀ axis, renderTimeAxis [c4Task] = .ok axis →
      axis.placements.Pairwise (fun a b => a.1 + a.2.length ≤ b.1))) :=
  ⟨rfl, spec_c4 [c4Task] 100 rfl⟩

/-! ### Right-edge alignment -/

theorem jsPadEnd_data_length (s : String) (LW : ℤ) (h : 0 ≤ LW) :
    (jsPadEnd s (.num LW 1)).data.length = max s.data.length LW.toNat := by
  simp only [jsPadEnd, Nat.cast_one, Int.fdiv_one, if_pos h]
  have hsl : s.length = s.data.length := rfl
  by_cases hlt : (s.length : ℤ) < LW
  · rw [if_pos hlt, String.data_append, List.length_append, spacesStr_data_length]
    omega
  · rw [if_neg hlt]
    omega

/-- On every chart whose computed label gutter `LW` and timeline width `W`
are nonnegative integers and whose computed timestamp columns form an
increasing integer chain from the gutter ending exactly at `LW + W` (as
the renderer's timestamps do for every chart it draws), the axis renderer
succeeds and both of its lines carry the final separator at column
`LW + W`.  No exact value of any intermediate column is assumed. -/
theorem renderTimeAxis_chain (tasks : List SummaryTask) (W LW : ℤ) (hW0 : 0 ≤ W)
    (hw : timeToChars tasks (totalDuration tasks) = .num W 1)
    (hlw : labelWidth tasks = .num LW 1) (hLW : 0 ≤ LW)
    (hchain : axisChain (LW + W) LW (getTimestamps tasks)) :
    ∃ axis, renderTimeAxis tasks = .ok axis ∧
      axis.markerLine.data.get? (LW + W).toNat = some '│' ∧
      axis.labelLine.data.get? (LW + W).toNat = some '│' := by
  have hrc : jsRepeatCount (labelWidth tasks) = .ok LW.toNat := by
    rw [hlw]
    exact jsRepeatCount_num_one LW hLW
  have hbound : jadd (labelWidth tasks) (timeToChars tasks (totalDuration tasks)) =
      .num (LW + W) 1 := by
    rw [hlw, hw, jadd_num_one]
  have hN : (((LW + W).toNat : ℕ) : ℤ) = LW + W := Int.toNat_of_nonneg (by omega)
  have hLn : ((LW.toNat : ℕ) : ℤ) = LW := Int.toNat_of_nonneg hLW
  have hlen : (getTimestamps tasks).length = 9 := rfl
  have hne : getTimestamps tasks ≠ [] := by
    intro hcon
    rw [hcon] at hlen
    simp at hlen
  have hchain2 : axisChain (((LW + W).toNat : ℕ) : ℤ) ((LW.toNat : ℕ) : ℤ)
      (getTimestamps tasks) := by
    rw [hN, hLn]
    exact hchain
  have hfuel : (LW + W).toNat + 2 - LW.toNat + (getTimestamps tasks).length ≤
      jsLoopBound (.num (LW + W) 1) + (getTimestamps tasks).length + 2 := by
    rw [jsLoopBound_num_one _ (by omega)]
    omega
  have hspec := renderTimeAxisAux_spec (LW + W).toNat
    (jsLoopBound (.num (LW + W) 1) + (getTimestamps tasks).length + 2)
    LW.toNat (getTimestamps tasks) (spacesStr LW.toNat) (spacesStr LW.toNat) []
    hchain2 (spacesStr_data_length _) (spacesStr_data_length _) hfuel
  rw [show (JSNum.num (((LW + W).toNat : ℕ) : ℤ) 1) = .num (LW + W) 1 by rw [hN]] at hspec
  obtain ⟨hmain, new, hnew, _, hpair⟩ := hspec
  obtain ⟨hmk, hlb2, hcp⟩ := hmain hne
  have hcore : renderTimeAxisCore tasks LW.toNat = renderTimeAxisAux (.num (LW + W) 1)
      (jsLoopBound (.num (LW + W) 1) + (getTimestamps tasks).length + 2)
      LW.toNat (getTimestamps tasks) (spacesStr LW.toNat) (spacesStr LW.toNat) [] := by
    simp only [renderTimeAxisCore]
    rw [hbound]
  have htrail : renderTimeAxisTrailing
      (jadd (labelWidth tasks) (timeToChars tasks (totalDuration tasks)))
      (jsLoopBound (jadd (labelWidth tasks) (timeToChars tasks (totalDuration tasks))) + 2)
      (renderTimeAxisCore tasks LW.toNat).2.2.2 (renderTimeAxisCore tasks LW.toNat).1
      (renderTimeAxisCore tasks LW.toNat).2.1 =
      ((renderTimeAxisCore tasks LW.toNat).1, (renderTimeAxisCore tasks LW.toNat).2.1) := by
    rw [hbound]
    refine renderTimeAxisTrailing_noop (LW + W) _ _ _ _ ?_
    rw [hcore]
    calc LW + W = (((LW + W).toNat : ℕ) : ℤ) := hN.symm
    _ < _ := by exact_mod_cast hcp
  refine ⟨⟨(renderTimeAxisCore tasks LW.toNat).1, (renderTimeAxisCore tasks LW.toNat).2.1,
    (renderTimeAxisCore tasks LW.toNat).2.2.1⟩, ?_, ?_, ?_⟩
  · rw [renderTimeAxis_ok_eq tasks LW.toNat hrc, htrail]
  · show (renderTimeAxisCore tasks LW.toNat).1.data.get? (LW + W).toNat = some '│'
    rw [hcore]
    exact hmk
  · show (renderTimeAxisCore tasks LW.toNat).2.1.data.get? (LW + W).toNat = some '│'
    rw [hcore]
    exact hlb2

/-- C6 (as amended): whatever integral timeline width `W` the chart
computes, when no task identifier exceeds the label gutter `LW` and the
computed timestamp columns chain up to `LW + W` (both being how every chart
is actually drawn), the rightmost separator of every task row and of both
axis lines falls at the same character column `LW + W`, so the chart's
right edge is one straight vertical line.  (A task identifier longer than
the gutter shifts its own row and breaks the alignment.) -/
theorem spec_c6 (tasks : List SummaryTask) (W : ℕ) (LW : ℤ)
    (hw : timeToChars tasks (totalDuration tasks) = .num (W : ℤ) 1)
    (hlw : labelWidth tasks = .num LW 1) (hLW : 0 ≤ LW)
    (hids : ∀ t ∈ tasks, (t.taskId.length : ℤ) ≤ LW)
    (hchain : axisChain (LW + (W : ℤ)) LW (getTimestamps tasks)) :
    (∀ t ∈ tasks,
      (renderTaskRow tasks t (getMarkerPositions tasks)).1.data.get? (LW.toNat + W) =
        some '│') ∧
    (∀ axis, renderTimeAxis tasks = .ok axis →
      axis.markerLine.data.get? (LW.toNat + W) = some '│' ∧
      axis.labelLine.data.get? (LW.toNat + W) = some '│') := by
  have htn : (LW + (W : ℤ)).toNat = LW.toNat + W := by omega
  constructor
  · intro t ht
    have hmem : JSNum.num (W : ℤ) 1 ∈ getMarkerPositions tasks :=
      width_mem_markerPositions tasks (W : ℤ) hw
    simp only [renderTaskRow]
    rw [hw]
    obtain ⟨pre, post, hdata, hlen⟩ := renderRowAux_last_column (getMarkerPositions tasks)
      (formatDuration (jsub (.num t.execution.endTime 1) (.num t.execution.startTime 1)))
      (getTaskBarBounds tasks t).1 (getTaskBarBounds tasks t).2 W hmem
      (jsLoopBound (JSNum.num (W : ℤ) 1) + 2) 0 none (by omega)
      (by rw [jsLoopBound_num_one _ (by positivity)]
          omega)
    rw [String.data_append, hdata]
    have hr : t.taskId.data.length = t.taskId.length := rfl
    have hlab : (jsPadEnd t.taskId (labelWidth tasks)).data.length = LW.toNat := by
      rw [hlw, jsPadEnd_data_length _ _ hLW]
      have hle := hids t ht
      omega
    rw [List.get?_append_right (by rw [hlab]; omega), hlab,
      show LW.toNat + W - LW.toNat = W from by omega,
      List.get?_append_right (by omega), hlen,
      show W - (W - 0) = 0 from by omega]
    rfl
  · intro axis haxis
    obtain ⟨axis', heq, hmk, hlb2⟩ := renderTimeAxis_chain tasks (W : ℤ) LW
      (by positivity) hw hlw hLW hchain
    have hax : axis' = axis := by
      rw [heq] at haxis
      exact Except.ok.inj haxis
    rw [htn] at hmk hlb2
    exact ⟨hax ▸ hmk, hax ▸ hlb2⟩

/-- A task whose identifier is wider than the 45-column label gutter. -/
def c6Task : SummaryTask :=
  ⟨"aaaaaaaaaaaaaaaaaaaaaaaaaaaaaaaaaaaaaaaaaaaaaa", "app", ⟨0, 800⟩⟩

/-- C6, counterexample to the original wording: with a 46-character task
identifier the gutter is capped at 45 columns but `padEnd(45)` leaves the
46-character label intact, so the row's final separator sits at column 146
while both axis lines put theirs at column 145 — the right edge is not one
straight vertical line. -/
theorem spec_c6_counterexample :
    labelWidth [c6Task] = .num 45 1 ∧
    (renderTimeAxis [c6Task]).map (fun axis => axis.markerLine.data.get? 145) =
      .ok (some '│') ∧
    (renderTaskRow [c6Task] c6Task (getMarkerPositions [c6Task])).1.data.get? 145 =
      some ' ' ∧
    (renderTaskRow [c6Task] c6Task (getMarkerPositions [c6Task])).1.data.get? 146 =
      some '│' := by
  refine ⟨rfl, ?_, ?_, ?_⟩
  · rfl
  · decide
  · decide

def c6WTask : SummaryTask := ⟨"app#build", "app", ⟨0, 1000⟩⟩

theorem spec_c6_witness :
    timeToChars [c6WTask] (totalDuration [c6WTask]) = .num ((100 : ℕ) : ℤ) 1 ∧
    labelWidth [c6WTask] = .num 11 1 ∧ (0 : ℤ) ≤ 11 ∧
    (∀ t ∈ [c6WTask], (t.taskId.length : ℤ) ≤ 11) ∧
    axisChain (11 + ((100 : ℕ) : ℤ)) 11 (getTimestamps [c6WTask]) ∧
    ((∀ t ∈ [c6WTask],
      (renderTaskRow [c6WTask] t (getMarkerPositions [c6WTask])).1.data.get?
          ((11 : ℤ).toNat + 100) = some '│') ∧
    (∀ axis, renderTimeAxis [c6WTask] = .ok axis →
      axis.markerLine.data.get? ((11 : ℤ).toNat + 100) = some '│' ∧
      axis.labelLine.data.get? ((11 : ℤ).toNat + 100) = some '│')) := by
  have hch : axisChain (11 + ((100 : ℕ) : ℤ)) 11 (getTimestamps [c6WTask]) :=
    ⟨11, by decide, by decide, by decide, by decide,
     23, by decide, by decide, by decide, by decide,
     36, by decide, by decide, by decide, by decide,
     48, by decide, by decide, by decide, by decide,
     61, by decide, by decide, by decide, by decide,
     73, by decide, by decide, by decide, by decide,
     86, by decide, by decide, by decide, by decide,
     98, by decide, by decide, by decide, by decide,
     111, by decide, by decide, by decide, by decide, trivial⟩
  exact ⟨rfl, rfl, by norm_num, by decide, hch,
    spec_c6 [c6WTask] 100 11 rfl rfl (by norm_num) (by decide) hch⟩

/-! ### Bar bounds, determinism, ordering, permutation -/

/-- C7: on every chart with positive integral duration, every task's bar
bounds are integers with `barStart ≥ 0` and `barWidth ≥ MIN_BAR_WIDTH = 3`
(so `barEnd = barStart + barWidth`), however short the task. -/
theorem spec_c7 (tasks : List SummaryTask) (t : SummaryTask) (d : ℤ)
    (htd : totalDuration tasks = .num d 1) (hd : 0 < d)
    (hne : tasks ≠ []) (ht : t ∈ tasks) :
    ∃ bs bw : ℤ, getTaskBarBounds tasks t = (.num bs 1, .num (bs + bw) 1) ∧
      0 ≤ bs ∧ (CONFIG.MIN_BAR_WIDTH : ℤ) ≤ bw := by
  obtain ⟨S, hS, _, hSb⟩ := rendererStartTime_spec tasks hne
  refine ⟨((t.execution.startTime - S) * 100).fdiv d,
    max 3 (((t.execution.endTime - t.execution.startTime) * 100).fdiv d), ?_, ?_, ?_⟩
  · simp only [getTaskBarBounds]
    rw [hS, jsub_num_one, jsub_num_one, timeToChars_int tasks d htd hd,
      timeToChars_int tasks d htd hd, show ((CONFIG.MIN_BAR_WIDTH : ℤ)) = 3 from rfl,
      jmax_num_one, jadd_num_one]
  · refine Int.fdiv_nonneg ?_ hd.le
    have hs := hSb t ht
    have : 0 ≤ t.execution.startTime - S := by omega
    positivity
  · rw [show ((CONFIG.MIN_BAR_WIDTH : ℤ)) = 3 from rfl]
    exact le_max_left _ _

def c7T1 : SummaryTask := ⟨"a#build", "a", ⟨0, 800⟩⟩
def c7T2 : SummaryTask := ⟨"b#build", "b", ⟨100, 101⟩⟩

theorem spec_c7_witness :
    totalDuration [c7T1, c7T2] = .num 800 1 ∧ (0 : ℤ) < 800 ∧
    ([c7T1, c7T2] : List SummaryTask) ≠ [] ∧ c7T2 ∈ [c7T1, c7T2] ∧
    ∃ bs bw : ℤ, getTaskBarBounds [c7T1, c7T2] c7T2 = (.num bs 1, .num (bs + bw) 1) ∧
      0 ≤ bs ∧ (CONFIG.MIN_BAR_WIDTH : ℤ) ≤ bw :=
  ⟨rfl, by norm_num, by simp, by simp,
    spec_c7 [c7T1, c7T2] c7T2 800 rfl (by norm_num) (by simp) (by simp)⟩

/-- C8: rendering is deterministic.  The full render is a function of the
task list alone (two invocations on the same input are byte-identical), and
the package-to-color assignment — hence every task's color — depends only
on the first-seen order of the package names. -/
theorem spec_c8 (tasks tasks' : List SummaryTask)
    (h : uniquePackages tasks = uniquePackages tasks') :
    render tasks = render tasks ∧
    assignPackageColors tasks = assignPackageColors tasks' ∧
    ∀ t : SummaryTask, getTaskColor tasks t = getTaskColor tasks' t := by
  have hc : assignPackageColors tasks = assignPackageColors tasks' := by
    rw [assignPackageColors, assignPackageColors, h]
  refine ⟨rfl, hc, ?_⟩
  intro t
  rw [getTaskColor, getTaskColor, hc]

def c8Task1 : SummaryTask := ⟨"a#build", "p", ⟨0, 5⟩⟩
def c8Task2 : SummaryTask := ⟨"b#test", "p", ⟨3, 9⟩⟩

theorem spec_c8_witness :
    uniquePackages [c8Task1] = uniquePackages [c8Task2] ∧
    (render [c8Task1] = render [c8Task1] ∧
      assignPackageColors [c8Task1] = assignPackageColors [c8Task2] ∧
      ∀ t : SummaryTask, getTaskColor [c8Task1] t = getTaskColor [c8Task2] t) :=
  ⟨rfl, spec_c8 [c8Task1] [c8Task2] rfl⟩

/-- C5: the display order groups tasks by package into contiguous blocks —
one block per first-seen package name, each block exactly the tasks of that
package — with the blocks in ascending order of minimum start time and
ordered stably with respect to first-seen order (equal-key filters agree
with the unsorted key list), and within each block the tasks in ascending
start time, stably (equal-start-time filters agree with the input order). -/
theorem spec_c5 (tasks : List SummaryTask) :
    ∃ keys : List String,
      keys.Nodup ∧
      (∀ p, p ∈ keys ↔ p ∈ tasks.map (fun t => t.package)) ∧
      groupAndSortTasks tasks =
        keys.flatMap (fun p => sortByStartTime (tasks.filter (fun t => t.package = p))) ∧
      keys.Pairwise (fun p q => groupMin tasks p ≤ groupMin tasks q) ∧
      (∀ v : WithTop ℤ, keys.filter (fun p => decide (groupMin tasks p = v)) =
        (uniquePackages tasks).filter (fun p => decide (groupMin tasks p = v))) ∧
      (∀ p, (sortByStartTime (tasks.filter (fun t => t.package = p))).Pairwise
        (fun a b => a.execution.startTime ≤ b.execution.startTime)) ∧
      (∀ (p : String) (s : ℤ),
        (sortByStartTime (tasks.filter (fun t => t.package = p))).filter
            (fun t => decide (t.execution.startTime = s)) =
          (tasks.filter (fun t => t.package = p)).filter
            (fun t => decide (t.execution.startTime = s))) :=
  ⟨sortedKeys tasks, sortedKeys_nodup tasks, mem_sortedKeys tasks,
    groupAndSortTasks_char tasks, sortedKeys_pairwise tasks,
    fun v => sortedKeys_filter tasks v,
    fun _ => sortByStartTime_pairwise _,
    fun _ s => sortByStartTime_filter _ s⟩

/-- C10: the display order is a permutation of the input — no task dropped
or duplicated — so the render emits exactly one row per input task. -/
theorem spec_c10 (tasks : List SummaryTask) :
    (groupAndSortTasks tasks).Perm tasks ∧
    (renderRows tasks).length = tasks.length := by
  refine ⟨groupAndSortTasks_perm tasks, ?_⟩
  rw [renderRows, List.length_map]
  exact (groupAndSortTasks_perm tasks).length_eq
